import Mathlib

/-!
gz-msgs protoc generator plugins: embedding and verification.

Embedded here:

* the new-header generator, `src/core/generator/Generator.cc` (namespace
  `NewHeader`), with its helper `getNamespaces`;
* the splice generator, `src/src/Generator.cc` (namespace `Splice`);
* the helper `replaceAll`, identical in the two source files.

A `std::string` is a list of characters.  `size_t` values are natural numbers
reduced modulo `2 ^ 64` wherever the source computes with them.  The C++
library pieces the source calls (`std::string::find`/`replace`, `std::getline`,
`std::filesystem::path`, protobuf's `io::Printer`) are modelled by the small
functions below, each with a comment naming the library behaviour it follows.
-/

/-- A `std::string`: its characters in order. -/
abbrev Str := List Char

/-! ## std::string operations -/

/-- The value `std::string::npos`, the largest `size_t`. -/
def npos : Nat := 2 ^ 64 - 1

/-- Wrapping `size_t` addition. -/
def sizeAdd (a b : Nat) : Nat := (a + b) % 2 ^ 64

/-- Wrapping `size_t` subtraction. -/
def sizeSub (a b : Nat) : Nat := (a % 2 ^ 64 + (2 ^ 64 - b % 2 ^ 64)) % 2 ^ 64

/-- Scan `s` (which starts at index `k` of the searched string) for the first
suffix that begins with `pat`; `npos` when there is none. -/
def findFrom (pat : Str) : Str → Nat → Nat
  | [], k => if pat = [] then k else npos
  | c :: cs, k => if pat.isPrefixOf (c :: cs) then k else findFrom pat cs (k + 1)

/-- The member `std::string::find(str, pos)`: the first index `>= pos` at which
`str` occurs in `src`, `npos` when `pos > size` or there is no occurrence. -/
def find (src str : Str) (pos : Nat) : Nat :=
  if pos ≤ src.length then findFrom str (src.drop pos) pos else npos

/-- The member `std::string::replace(pos, len, str)` for `pos <= size`:
the characters `[pos, pos + len)` (cut at the end) are replaced by `str`. -/
def replace (src : Str) (pos len : Nat) (str : Str) : Str :=
  src.take pos ++ str ++ src.drop (pos + len)

/-- The loop of `replaceAll` (both source files, lines 41-45 and 55-59):
`for (size_t i = 0; (i = _src.find(_oldValue, i)) != npos;)` with the body
`_src.replace(i, _oldValue.length(), _newValue);
 i += _newValue.length() - _oldValue.length() + 1;`.
The first argument bounds the number of loop tests; `none` means the bound was
reached before the loop ended. -/
def replaceAllLoop : Nat → Str → Str → Str → Nat → Option Str
  | 0, _, _, _, _ => none
  | fuel + 1, _src, _oldValue, _newValue, i =>
    let j := find _src _oldValue i
    if j = npos then some _src
    else
      replaceAllLoop fuel (replace _src j _oldValue.length _newValue) _oldValue _newValue
        (sizeAdd j (sizeAdd (sizeSub _newValue.length _oldValue.length) 1))

/-- The function `replaceAll(_src, _oldValue, _newValue)`: the final value of
`_src`, given a bound on the number of loop tests. -/
def replaceAll (fuel : Nat) (_src _oldValue _newValue : Str) : Option Str :=
  replaceAllLoop fuel _src _oldValue _newValue 0

/-- Number of positions of `s` at which `pat` occurs. -/
def countOccurrences (pat : Str) : Str → Nat
  | [] => if pat = [] then 1 else 0
  | c :: cs => (if pat.isPrefixOf (c :: cs) then 1 else 0) + countOccurrences pat cs

/-! ## std::getline on a string stream, and getNamespaces -/

/-- A `std::stringstream` being read: the characters not yet extracted and the
two state bits that `std::getline` consults and sets. -/
structure StringStream where
  buf : Str
  eofbit : Bool
  failbit : Bool
deriving DecidableEq

/-- Character extraction of `std::getline`: characters are moved to the item
until the delimiter has been extracted (and dropped) or the input ends.
Returns the item, the characters left, and whether the end was hit. -/
def extractLine (delim : Char) : Str → Str × Str × Bool
  | [] => ([], [], true)
  | c :: cs =>
    if c = delim then ([], cs, false)
    else
      let r := extractLine delim cs
      (c :: r.1, r.2.1, r.2.2)

/-- The call `std::getline(ss, item, delim)`, returning the new stream state, the
item, and the truth value of the stream afterwards.  On a stream that is not
good the call fails; on an empty buffer nothing is extracted and both bits are
set; otherwise the extraction succeeds (the delimiter counts as extracted). -/
def getline (ss : StringStream) (delim : Char) : StringStream × Str × Bool :=
  if ss.eofbit || ss.failbit then (⟨ss.buf, ss.eofbit, true⟩, [], false)
  else
    match ss.buf with
    | [] => (⟨[], true, true⟩, [], false)
    | c :: cs =>
      let r := extractLine delim (c :: cs)
      (⟨r.2.1, r.2.2, false⟩, r.1, true)

/-- The loop `while (getline (ss, item, '.')) result.push_back (item);` of
`getNamespaces` (core generator, lines 68-70). -/
def getNamespacesLoop (ss : StringStream) (result : List Str) : List Str :=
  match h : getline ss '.' with
  | (ss2, item, true) => getNamespacesLoop ss2 (result ++ [item])
  | (_, _, false) => result
termination_by ss.buf.length
decreasing_by
  have hx : ∀ s : Str, (extractLine '.' s).2.1.length ≤ s.length := by
    intro s
    induction s with
    | nil => simp [extractLine]
    | cons c cs ih =>
      unfold extractLine
      split
      · simp
      · simp only [List.length_cons]; omega
  unfold getline at h
  split at h
  · simp at h
  · split at h
    · simp at h
    · rename_i c cs hb
      simp only [Prod.mk.injEq, and_true] at h
      obtain ⟨h1, _⟩ := h
      subst h1
      rw [hb]
      simp only [List.length_cons]
      unfold extractLine
      split
      · simp
      · have := hx cs
        simp only [List.length_cons]
        omega

/-- The function `getNamespaces(_package)` (core generator, lines 63-72). -/
def getNamespaces (_package : Str) : List Str :=
  getNamespacesLoop ⟨_package, false, false⟩ []

/-! ## std::filesystem::path (generic format, '/' the only separator) -/

/-- Put a character in front of the first string of a list of strings. -/
def consHead (c : Char) : List Str → List Str
  | h :: t => (c :: h) :: t
  | [] => [[c]]

namespace path

/-- The file names of a relative path: the maximal runs without '/', runs of
'/' counting as one separator, and an empty last name when the path ends in
'/'. -/
def names : Str → List Str
  | [] => [[]]
  | c :: cs =>
    if c = '/' then (if cs.head? = some '/' then names cs else [] :: names cs)
    else consHead c (names cs)

/-- The elements a `std::filesystem::path` built from a string iterates over:
nothing for the empty path; the root directory "/" first when the string
starts with '/', its further leading '/' skipped; then the file names. -/
def parse (p : Str) : List Str :=
  match p with
  | [] => []
  | c :: cs =>
    if c = '/' then
      ['/'] :: (if cs.dropWhile (fun x => x = '/') = [] then []
                else names (cs.dropWhile (fun x => x = '/')))
    else names (c :: cs)

/-- The query `has_relative_path()`: there is an element besides the root
directory. -/
def has_relative_path (elems : List Str) : Bool :=
  match elems with
  | [] => false
  | e :: rest => if e = ['/'] then !rest.isEmpty else true

/-- The member `parent_path()`, as elements: the path itself when it has no relative
part, else the path without its last element. -/
def parent_path (elems : List Str) : List Str :=
  if has_relative_path elems then elems.dropLast else elems

/-- The member `filename()`: the last element of the relative part, empty when
there is none. -/
def filename (elems : List Str) : Str :=
  if has_relative_path elems then elems.getLast?.getD [] else []

/-- The index of the last occurrence of `c`, as `std::string::rfind(c)`. -/
def rfind (c : Char) : Str → Option Nat
  | [] => none
  | x :: xs =>
    match rfind c xs with
    | some k => some (k + 1)
    | none => if x = c then some 0 else none

/-- The stem of a file name: the name itself when it is empty, when it has at
most two characters and starts with '.', or when its last '.' is missing or
is its first character; else the part before the last '.'. -/
def stemOf (f : Str) : Str :=
  if f.length ≤ 2 ∧ f.head? = some '.' then f
  else
    match rfind '.' f with
    | none => f
    | some 0 => f
    | some (k + 1) => f.take (k + 1)

/-- The member `stem()`. -/
def stem (elems : List Str) : Str := stemOf (filename elems)

end path

/-! ## The protobuf descriptor and output-directory interfaces -/

/-- A `FileDescriptor` as the generators read it: `name()`, `package()`, and
the `name()` of each `message_type(i)`, in declaration order. -/
structure FileDescriptor where
  name : Str
  package : Str
  message_type : List Str

/-- The host's `OutputDirectory`: for each request whether it hands out
a stream (`true`) or a null pointer (`false`). -/
structure OutputDirectory where
  Open : Str → Bool
  OpenForInsert : Str → Str → Bool

/-- An `io::Printer`: `none` when it was built on a null stream, else the
text written to its stream so far. -/
structure Printer where
  output : Option Str
deriving DecidableEq

/-- The call `Printer::WriteRaw`: nothing happens for empty data; other data is
appended to the stream (the indent is empty throughout); `none` is the
dereference of a null stream. -/
def Printer.WriteRaw (p : Printer) (data : Str) : Option Printer :=
  if data = [] then some p
  else
    match p.output with
    | none => none
    | some t => some ⟨some (t ++ data)⟩

/-- Lookup in the `variables` map. -/
def lookupVar (vars : List (Str × Str)) (name : Str) : Option Str :=
  match vars with
  | [] => none
  | (k, v) :: rest => if k = name then some v else lookupVar rest name

/-- The text `Printer::Print(variables, text)` writes for a template, the
delimiter being '$': `$name$` is replaced by the value of `name` (by nothing
when undefined), `$$` by one '$'; the values are written as they are.  The
second argument holds the variable name being read, if any; a template that
ends inside a name (none of this program does) gives nothing for it. -/
def substitute (vars : List (Str × Str)) : Str → Option Str → Str
  | [], _ => []
  | c :: cs, none =>
    if c = '$' then substitute vars cs (some []) else c :: substitute vars cs none
  | c :: cs, some v =>
    if c = '$' then
      (if v = [] then ['$'] else (lookupVar vars v).getD []) ++ substitute vars cs none
    else substitute vars cs (some (v ++ [c]))

/-- The conversion `std::string::c_str()` read back as a C string: the characters
before the first NUL. -/
def c_str (s : Str) : Str := s.takeWhile (fun c => c ≠ Char.ofNat 0)

/-- What a `Generate` call leaves behind: `returned` is the value it returned,
`none` when it did not return because a null stream was dereferenced; `files`
lists, in the order of opening, every stream the output directory handed
out with the text written to it. -/
structure Outcome where
  returned : Option Bool
  files : List (Str × Str)
deriving DecidableEq

namespace NewHeader

/-- The names `Generate` derives from the file name (lines 89-124). -/
structure DerivedNames where
  indexFilename : Str
  identifier : Str
  headerFilename : Str
  newHeaderFilename : Str
  sourceFilename : Str
deriving DecidableEq

/-- The four strings built up by the loop over the parent path. -/
structure Prefixes where
  identifier : Str
  headerFilename : Str
  newHeaderFilename : Str
  sourceFilename : Str

/-- Lines 89-124 of `Generate`: the loop `for (auto part : parent_path)`
appends `part + "_"` to the identifier and `part + "/"` to the three file
names; the index file is named from the identifier as it stands after the
loop; then the stem and the extensions are appended. -/
def deriveNames (name : Str) : DerivedNames :=
  let filePath := path.parse name
  let parent_path := path.parent_path filePath
  let fileStem := path.stem filePath
  let pre : Prefixes := parent_path.foldl
    (fun acc part =>
      ⟨acc.identifier ++ (part ++ "_".toList),
       acc.headerFilename ++ (part ++ "/".toList),
       acc.newHeaderFilename ++ (part ++ "/".toList),
       acc.sourceFilename ++ (part ++ "/".toList)⟩)
    ⟨[], [], [], []⟩
  ⟨pre.identifier ++ fileStem ++ ".pb_index".toList,
   pre.identifier ++ fileStem,
   pre.headerFilename ++ (fileStem ++ ".gz.h".toList),
   pre.newHeaderFilename ++ ("details/".toList ++ fileStem ++ ".pb.h".toList),
   pre.sourceFilename ++ (fileStem ++ ".pb.cc".toList)⟩

/-- The raw string literal printed at the top of the header (lines 136-148). -/
def headerTop : Str :=
  ("\n// Generated by the protocol buffer compiler.  DO NOT EDIT!\n" ++
   "// source: $filename$\n" ++
   "\n" ++
   "#ifndef $define_guard$\n" ++
   "#define $define_guard$\n" ++
   "\n" ++
   "#include <memory>\n" ++
   "\n" ++
   "#include <gz/msgs/Export.hh>\n" ++
   "\n" ++
   "#include <$detail_header$>\n").toList

/-- The string `ptrTypes` built for one message (lines 163-181). -/
def ptrTypes (name : Str) : Str :=
  "typedef std::unique_ptr<".toList ++ name ++ "> ".toList ++ name ++ "UniquePtr;\n".toList
  ++ ("typedef std::unique_ptr<const ".toList ++ name ++ "> Const".toList
      ++ name ++ "UniquePtr;\n".toList)
  ++ ("typedef std::shared_ptr<".toList ++ name ++ "> ".toList ++ name ++ "SharedPtr;\n".toList)
  ++ ("typedef std::shared_ptr<const ".toList ++ name ++ "> Const".toList
      ++ name ++ "SharedPtr;\n".toList)

/-- The two printers of `Generate` and whether a null stream has been
dereferenced (after which nothing more happens). -/
structure GenState where
  indexPrinter : Printer
  printer : Printer
  fault : Bool
deriving DecidableEq

/-- A write through `indexPrinter`. -/
def GenState.toIndex (s : GenState) (data : Str) : GenState :=
  if s.fault then s
  else
    match s.indexPrinter.WriteRaw data with
    | some p => ⟨p, s.printer, false⟩
    | none => ⟨s.indexPrinter, s.printer, true⟩

/-- A write through `printer`, the printer of the header. -/
def GenState.toHeader (s : GenState) (data : Str) : GenState :=
  if s.fault then s
  else
    match s.printer.WriteRaw data with
    | some p => ⟨s.indexPrinter, p, false⟩
    | none => ⟨s.indexPrinter, s.printer, true⟩

/-- The body of the loop over the message types (lines 157-183). -/
def messageStep (s : GenState) (name : Str) : GenState :=
  ((s.toIndex name).toIndex "\n".toList).toHeader (c_str (ptrTypes name))

/-- The streams that were handed out, with their text. -/
def filesOf (names : DerivedNames) (s : GenState) : List (Str × Str) :=
  (match s.indexPrinter.output with
   | some t => [(names.indexFilename, t)]
   | none => [])
  ++
  (match s.printer.output with
   | some t => [(names.headerFilename, t)]
   | none => [])

/-- The function `Generator::Generate` of `src/core/generator/Generator.cc`
(lines 84-197).  No check of the streams is made and the only `return` is
`return true`. -/
def Generate (_file : FileDescriptor) (_generatorContext : OutputDirectory) : Outcome :=
  let names := deriveNames _file.name
  let indexPrinter : Printer :=
    ⟨if _generatorContext.Open names.indexFilename then some [] else none⟩
  let vars : List (Str × Str) :=
    [("filename".toList, _file.name),
     ("define_guard".toList, names.identifier),
     ("detail_header".toList, names.newHeaderFilename)]
  let printer : Printer :=
    ⟨if _generatorContext.Open names.headerFilename then some [] else none⟩
  let s0 : GenState := ⟨indexPrinter, printer, false⟩
  let s1 := s0.toHeader (substitute vars headerTop none)
  let ns := getNamespaces _file.package
  let s2 := ns.foldl (fun s name => s.toHeader ("namespace ".toList ++ name ++ " \x7b\n".toList)) s1
  let s3 := _file.message_type.foldl messageStep s2
  let s4 := ns.reverse.foldl
    (fun s name => s.toHeader ("\x7d  // namespace ".toList ++ name ++ "\n".toList)) s3
  let s5 := s4.toHeader "\n".toList
  let s6 := s5.toHeader (substitute vars "#endif  // $define_guard$\n".toList none)
  ⟨if s6.fault then none else some true, filesOf names s6⟩

end NewHeader

/-! ## The splice generator, `src/src/Generator.cc` -/

/-- Scan `s` (which starts at index `k` of the searched string) for the last
suffix that begins with `pat`. -/
def rfindFrom (pat : Str) : Str → Nat → Option Nat
  | [], k => if pat = [] then some k else none
  | c :: cs, k =>
    match rfindFrom pat cs (k + 1) with
    | some j => some j
    | none => if pat.isPrefixOf (c :: cs) then some k else none

/-- The member `std::string::rfind(str)`: the last index at which `str` occurs in
`src`, `npos` when there is no occurrence. -/
def rfind (src str : Str) : Nat := (rfindFrom str src 0).getD npos

/-- The member `std::string::replace(pos, len, str)` with its check: `none` is the
exception `std::out_of_range`, thrown when `pos > size`. -/
def replaceOrThrow (src : Str) (pos len : Nat) (str : Str) : Option Str :=
  if pos ≤ src.length then some (replace src pos len str) else none

namespace Splice

/-- How a call of `Generate` ends. -/
inductive Status where
  | returned (value : Bool)
  | out_of_range
  | null_stream
  | no_message_type
  | unfinished
deriving DecidableEq

/-- One request `OpenForInsert(filename, insertion_point)`: whether a stream was
handed out, and the text written to it. -/
structure Insertion where
  filename : Str
  insertion_point : Str
  stream : Bool
  text : Str
deriving DecidableEq

/-- What a call leaves behind: how it ended and the requests made, in order.
The ends besides `returned` are: `out_of_range`, the exception of
`std::string::replace`; `null_stream`, a write through a printer built on a
null stream; `no_message_type`, the evaluation of `message_type(0)` on a
descriptor without message types; `unfinished`, the loop of `replaceAll` not
having ended within the tests given to it. -/
structure Outcome where
  status : Status
  insertions : List Insertion
deriving DecidableEq

/-- The call in progress: `status` is `none` while it runs; `insertions` holds the
requests made so far, the latest first. The printer in scope is always the
one of the latest request. -/
structure Run where
  status : Option Status
  insertions : List Insertion

/-- The statement block opening `OpenForInsert(filename, insertion_point)` and
building a printer on the result. -/
def Run.OpenForInsert (r : Run) (ctx : OutputDirectory) (filename insertion_point : Str) :
    Run :=
  if r.status.isSome then r
  else ⟨none, ⟨filename, insertion_point, ctx.OpenForInsert filename insertion_point, []⟩
    :: r.insertions⟩

/-- The call `printer.Print(text, varname, value)` on the printer in scope: the
template is expanded and written; writing a non-empty text through a null stream
ends the call.  (Every `Print` of `Generate` follows an `OpenForInsert`, so
the case of no request is never met.) -/
def Run.Print (r : Run) (text varname value : Str) : Run :=
  if r.status.isSome then r
  else
    match r.insertions with
    | [] => r
    | ins :: rest =>
      if substitute [(varname, value)] text none = [] then r
      else if ins.stream then
        ⟨none, ⟨ins.filename, ins.insertion_point, true,
          ins.text ++ substitute [(varname, value)] text none⟩ :: rest⟩
      else ⟨some Status.null_stream, ins :: rest⟩

/-- The call ends in the given way, unless it has ended already. -/
def Run.stop (r : Run) (s : Status) : Outcome :=
  ⟨r.status.getD s, r.insertions.reverse⟩

/-- Lines 55-62 of `Generate`: the header and the source file name, each made
from `_file->name()` by `rfind(".proto")` and `replace`; `none` when `replace`
throws. -/
def deriveNames (name : Str) : Option (Str × Str) :=
  let delim := ".proto".toList
  match replaceOrThrow name (rfind name delim) delim.length ".pb.h".toList with
  | none => none
  | some headerFilename =>
    match replaceOrThrow name (rfind name delim) delim.length ".pb.cc".toList with
    | none => none
    | some sourceFilename => some (headerFilename, sourceFilename)

/-- The function `Generator::Generate` of `src/src/Generator.cc` (lines 50-134).
After the two file names, five blocks each open an insertion point and print
into it.  `message_type(0)` is first evaluated at line 85; `replaceAll` is
called at lines 107 and 124, here with `package.length + 1` loop tests
(enough whenever the result fits a `size_t` length); no stream is checked and
the only `return` is `return true`. -/
def Generate (_file : FileDescriptor) (_generator_context : OutputDirectory) : Outcome :=
  match deriveNames _file.name with
  | none => ⟨Status.out_of_range, []⟩
  | some (headerFilename, sourceFilename) =>
    let r1 := ((⟨none, []⟩ : Run).OpenForInsert _generator_context headerFilename
        "includes".toList).Print
      "#pragma GCC system_header".toList "name".toList "includes".toList
    let r2 := ((r1.OpenForInsert _generator_context sourceFilename "includes".toList).Print
        "#include \"ignition/messages/Factory.hh\"\n".toList "name".toList
        "includes".toList).Print
      "#pragma GCC diagnostic ignored \"-Wshadow\"\n".toList "name".toList "includes".toList
    match _file.message_type with
    | [] => r2.stop Status.no_message_type
    | message_type_0 :: _ =>
      let factory := "IGN_REGISTER_STATIC_MSG(\"ign_msgs.".toList
        ++ (message_type_0 ++ "\", ".toList ++ message_type_0 ++ ")".toList)
      let r3 := r2.Print (c_str factory) "name".toList "includes".toList
      let r4 := (r3.OpenForInsert _generator_context headerFilename "includes".toList).Print
        "#include <memory>\n".toList "name".toList "includes".toList
      let r5 := r4.OpenForInsert _generator_context headerFilename "namespace_scope".toList
      match replaceAll (_file.package.length + 1) _file.package ".".toList "::".toList with
      | none => r5.stop Status.unfinished
      | some package =>
        let ptrType := "typedef std::shared_ptr<".toList ++ package
          ++ "::".toList ++ message_type_0 ++ "> ".toList
          ++ message_type_0 ++ "Ptr;\n".toList
        let r6 := r5.Print (c_str ptrType) "name".toList "namespace_scope".toList
        let r7 := r6.OpenForInsert _generator_context headerFilename "global_scope".toList
        match replaceAll (_file.package.length + 1) _file.package ".".toList "::".toList with
        | none => r7.stop Status.unfinished
        | some package2 =>
          let constType := "typedef const std::shared_ptr<".toList ++ package2
            ++ "::".toList ++ message_type_0 ++ " const> Const".toList
            ++ message_type_0 ++ "Ptr;".toList
          let r8 := r7.Print (c_str constType) "name".toList "global_scope".toList
          r8.stop (Status.returned true)

end Splice

/-! ## Notions the specification speaks in -/

/-- Splitting a text on a separator: the pieces between consecutive
separators, the piece before the first and the piece after the last included
(so a text with `n` separators gives `n + 1` pieces). -/
def splitOnChar (d : Char) : Str → List Str
  | [] => [[]]
  | c :: cs => if c = d then [] :: splitOnChar d cs else consHead c (splitOnChar d cs)

/-- Splitting a text into lines: every terminator ends a line, and characters
after the last terminator, if any, form a last line. -/
def splitLines (d : Char) : Str → List Str
  | [] => []
  | c :: cs => if c = d then [] :: splitLines d cs else consHead c (splitLines d cs)

/-- Joining strings with a separator placed between consecutive ones. -/
def joinSep (sep : Str) : List Str → Str
  | [] => []
  | [x] => x
  | x :: y :: rest => x ++ sep ++ joinSep sep (y :: rest)

/-- Replacing every occurrence of one character by a string, left to right. -/
def replaceChar (c : Char) (new : Str) : Str → Str
  | [] => []
  | x :: xs => if x = c then new ++ replaceChar c new xs else x :: replaceChar c new xs

/-- The name on a namespace-opening line: `some c` exactly when the line is
`namespace c {`. -/
def nsOpenName (line : Str) : Option Str :=
  let c := (line.drop 10).take ((line.drop 10).length - 2)
  if line = "namespace ".toList ++ c ++ " \x7b".toList then some c else none

/-- The name on a namespace-closing line: `some c` exactly when the line is
`}  // namespace c`. -/
def nsCloseName (line : Str) : Option Str :=
  if line = "\x7d  // namespace ".toList ++ line.drop 16 then some (line.drop 16) else none

/-- A typedef declaration line: a line that starts with `typedef `. -/
def isTypedefLine (line : Str) : Bool := "typedef ".toList.isPrefixOf line

/-- The text made of the given lines, each followed by a newline. -/
def joinLines (ls : List Str) : Str := (ls.map (fun l => l ++ ['\n'])).flatten

/-- The lines of the top of the header, for a file name, include guard and detail
header. -/
def preambleLines (filename define_guard detail_header : Str) : List Str :=
  [[],
   "// Generated by the protocol buffer compiler.  DO NOT EDIT!".toList,
   "// source: ".toList ++ filename,
   [],
   "#ifndef ".toList ++ define_guard,
   "#define ".toList ++ define_guard,
   [],
   "#include <memory>".toList,
   [],
   "#include <gz/msgs/Export.hh>".toList,
   [],
   "#include <".toList ++ detail_header ++ ">".toList]

/-- The four alias declarations of a message, one per line. -/
def aliasLines (m : Str) : List Str :=
  ["typedef std::unique_ptr<".toList ++ m ++ "> ".toList ++ m ++ "UniquePtr;".toList,
   "typedef std::unique_ptr<const ".toList ++ m ++ "> Const".toList ++ m ++ "UniquePtr;".toList,
   "typedef std::shared_ptr<".toList ++ m ++ "> ".toList ++ m ++ "SharedPtr;".toList,
   "typedef std::shared_ptr<const ".toList ++ m ++ "> Const".toList ++ m ++ "SharedPtr;".toList]

/-- The number of occurrences of a non-empty `pat` counted left to right without
overlap: after an occurrence the count resumes behind it.  The second
argument is the number of characters still to skip. -/
def countDisjointFrom (pat : Str) : Str → Nat → Nat
  | [], _ => 0
  | _ :: cs, skip + 1 => countDisjointFrom pat cs skip
  | c :: cs, 0 =>
    if pat.isPrefixOf (c :: cs) then 1 + countDisjointFrom pat cs (pat.length - 1)
    else countDisjointFrom pat cs 0

/-- The number of non-overlapping occurrences of `pat` in `s`. -/
def countDisjoint (pat s : Str) : Nat := countDisjointFrom pat s 0

/-- The standard replacement of every non-overlapping occurrence of a non-empty
`old` by `new`, left to right: after an occurrence the scan resumes behind it,
the inserted text being left alone.  The second argument is the number of
characters of an occurrence still to drop. -/
def replaceStandardFrom (old new : Str) : Str → Nat → Str
  | [], _ => []
  | _ :: cs, skip + 1 => replaceStandardFrom old new cs skip
  | c :: cs, 0 =>
    if old.isPrefixOf (c :: cs) then new ++ replaceStandardFrom old new cs (old.length - 1)
    else c :: replaceStandardFrom old new cs 0

/-- The standard left-to-right replacement of `old` by `new` in `s`. -/
def replaceStandard (s old new : Str) : Str := replaceStandardFrom old new s 0

namespace Splice

/-- The requests of a call in progress, latest first, are `top ++ base` with a
non-empty `top` of requests for the file `h`. -/
def Above (base : List Insertion) (h : Str) (r : Run) : Prop :=
  ∃ top, r.insertions = top ++ base ∧ top ≠ [] ∧ ∀ i ∈ top, i.filename = h

/-- The target of a request: its file name and insertion point. -/
def key (i : Insertion) : Str × Str := (i.filename, i.insertion_point)

/-- The targets of the requests made so far, in order, are the first `m` of the
list `T`, for an `m` that is at most `n` and is `n` while the call runs. -/
def Requested (T : List (Str × Str)) (n : Nat) (r : Run) : Prop :=
  ∃ m, m ≤ n ∧ r.insertions.reverse.map key = T.take m ∧ (r.status = none → m = n)

end Splice

/-! # Lemmas and theorems -/

/-! ## The printers of the new-header generator -/

namespace NewHeader

@[simp] theorem toHeader_ok (ip : Printer) (t d : Str) :
    GenState.toHeader ⟨ip, ⟨some t⟩, false⟩ d = ⟨ip, ⟨some (t ++ d)⟩, false⟩ := by
  unfold GenState.toHeader Printer.WriteRaw
  by_cases h : d = [] <;> simp [h]

@[simp] theorem toIndex_ok (p : Printer) (t d : Str) :
    GenState.toIndex ⟨⟨some t⟩, p, false⟩ d = ⟨⟨some (t ++ d)⟩, p, false⟩ := by
  unfold GenState.toIndex Printer.WriteRaw
  by_cases h : d = [] <;> simp [h]

theorem foldl_toHeader (f : Str → Str) (ns : List Str) (ip : Printer) (t : Str) :
    ns.foldl (fun (s : GenState) name => s.toHeader (f name)) ⟨ip, ⟨some t⟩, false⟩
      = ⟨ip, ⟨some (t ++ (ns.map f).flatten)⟩, false⟩ := by
  induction ns generalizing t with
  | nil => simp
  | cons n ns ih => simp [ih]

theorem foldl_messageStep (ms : List Str) (a b : Str) :
    ms.foldl messageStep ⟨⟨some a⟩, ⟨some b⟩, false⟩
      = ⟨⟨some (a ++ (ms.map (fun m => m ++ "\n".toList)).flatten)⟩,
         ⟨some (b ++ (ms.map (fun m => c_str (ptrTypes m))).flatten)⟩, false⟩ := by
  induction ms generalizing a b with
  | nil => simp
  | cons n ns ih => simp [messageStep, ih]

set_option maxRecDepth 100000 in
theorem substitute_headerTop (f g d : Str) :
    substitute [("filename".toList, f), ("define_guard".toList, g),
        ("detail_header".toList, d)] headerTop none
      = "\n// Generated by the protocol buffer compiler.  DO NOT EDIT!\n// source: ".toList
        ++ (f ++ ("\n\n#ifndef ".toList ++ (g ++ ("\n#define ".toList ++ (g
        ++ ("\n\n#include <memory>\n\n#include <gz/msgs/Export.hh>\n\n#include <".toList
        ++ (d ++ ">\n".toList))))))) := by
  rfl

theorem substitute_endif (f g d : Str) :
    substitute [("filename".toList, f), ("define_guard".toList, g),
        ("detail_header".toList, d)] "#endif  // $define_guard$\n".toList none
      = "#endif  // ".toList ++ (g ++ "\n".toList) := by
  rfl

end NewHeader

/-! ## getNamespaces in closed form -/

theorem splitLines_extractLine (d : Char) (s : Str) (hs : s ≠ []) :
    splitLines d s = (extractLine d s).1 ::
      (if (extractLine d s).2.2 then [] else splitLines d (extractLine d s).2.1) := by
  induction s with
  | nil => exact absurd rfl hs
  | cons c cs ih =>
    by_cases hc : c = d
    · simp [splitLines, extractLine, hc]
    · by_cases hcs : cs = []
      · subst hcs
        simp [splitLines, extractLine, hc, consHead]
      · have := ih hcs
        simp only [splitLines, extractLine, hc, if_false]
        rw [this]
        simp [consHead]

theorem getNamespacesLoop_eof (b : Str) (acc : List Str) :
    getNamespacesLoop ⟨b, true, false⟩ acc = acc := by
  rw [getNamespacesLoop]
  simp [getline]

theorem getNamespacesLoop_eq (n : Nat) : ∀ (s : Str) (acc : List Str), s.length ≤ n →
    getNamespacesLoop ⟨s, false, false⟩ acc = acc ++ splitLines '.' s := by
  induction n with
  | zero =>
    intro s acc hs
    have : s = [] := List.length_eq_zero.mp (Nat.le_zero.mp hs)
    subst this
    rw [getNamespacesLoop]
    simp [getline, splitLines]
  | succ n ih =>
    intro s acc hs
    cases s with
    | nil =>
      rw [getNamespacesLoop]
      simp [getline, splitLines]
    | cons c cs =>
      have hlen : (extractLine '.' (c :: cs)).2.1.length ≤ n := by
        have hx : ∀ s : Str, (extractLine '.' s).2.1.length ≤ s.length := by
          intro s
          induction s with
          | nil => simp [extractLine]
          | cons c cs ih =>
            unfold extractLine
            split
            · simp
            · simp only [List.length_cons]; omega
        have h1 := hx cs
        simp only [List.length_cons] at hs
        unfold extractLine
        split
        · simp; omega
        · simp only; omega
      have hsp := splitLines_extractLine '.' (c :: cs) (by simp)
      rw [getNamespacesLoop]
      rw [hsp]
      cases hE : (extractLine '.' (c :: cs)).2.2
      · simp [getline, hE, ih _ _ hlen]
      · simp [getline, hE, getNamespacesLoop_eof]

theorem getNamespaces_eq (p : Str) : getNamespaces p = splitLines '.' p := by
  unfold getNamespaces
  simpa using getNamespacesLoop_eq p.length p [] (le_refl _)

namespace NewHeader

set_option maxRecDepth 100000 in
/-- With both streams handed out, `Generate` returns `true` and leaves the index and
the header, whose texts are the concatenations of the pieces printed. -/
theorem Generate_eq (file : FileDescriptor) (ctx : OutputDirectory)
    (hidx : ctx.Open (deriveNames file.name).indexFilename = true)
    (hhdr : ctx.Open (deriveNames file.name).headerFilename = true) :
    Generate file ctx =
      ⟨some true,
        [((deriveNames file.name).indexFilename,
            (file.message_type.map (fun m => m ++ "\n".toList)).flatten),
         ((deriveNames file.name).headerFilename,
            "\n// Generated by the protocol buffer compiler.  DO NOT EDIT!\n// source: ".toList
            ++ (file.name ++ ("\n\n#ifndef ".toList ++ ((deriveNames file.name).identifier
            ++ ("\n#define ".toList ++ ((deriveNames file.name).identifier
            ++ ("\n\n#include <memory>\n\n#include <gz/msgs/Export.hh>\n\n#include <".toList
            ++ ((deriveNames file.name).newHeaderFilename ++ (">\n".toList
            ++ (((getNamespaces file.package).map
                  (fun c => "namespace ".toList ++ c ++ " \x7b\n".toList)).flatten
            ++ ((file.message_type.map (fun m => c_str (ptrTypes m))).flatten
            ++ (((getNamespaces file.package).reverse.map
                  (fun c => "\x7d  // namespace ".toList ++ c ++ "\n".toList)).flatten
            ++ ("\n".toList ++ ("#endif  // ".toList
            ++ ((deriveNames file.name).identifier ++ "\n".toList)))))))))))))))]⟩ := by
  unfold Generate
  simp only [hidx, hhdr, if_true, substitute_headerTop, substitute_endif, toHeader_ok,
    foldl_toHeader, foldl_messageStep, filesOf]
  simp only [List.append_assoc, List.nil_append, Bool.false_eq_true, if_false,
    List.singleton_append]

end NewHeader

/-! ## The concrete scenario -/

namespace NewHeader

set_option maxRecDepth 100000 in
theorem deriveNames_foo :
    deriveNames "gz/msgs/foo.proto".toList =
      ⟨"gz_msgs_foo.pb_index".toList, "gz_msgs_foo".toList, "gz/msgs/foo.gz.h".toList,
       "gz/msgs/details/foo.pb.h".toList, "gz/msgs/foo.pb.cc".toList⟩ := by
  decide

end NewHeader

set_option maxRecDepth 100000 in
/-- C1. For the descriptor with file name "gz/msgs/foo.proto", package "gz.msgs" and
the single message "Foo", and an output directory that hands out the two
streams asked for: the identifier is "gz_msgs_foo", the detail header is
"gz/msgs/details/foo.pb.h", and `Generate` returns `true` having written the
index file "gz_msgs_foo.pb_index" with the single line "Foo" and the header
"gz/msgs/foo.gz.h", which includes the detail header and then holds, in this
order, the opening of namespace gz, the opening of namespace msgs, the
declaration of `FooUniquePtr` (and the three other aliases), the closing of
msgs and the closing of gz. -/
theorem C1_scenario_gz_msgs_foo (ctx : OutputDirectory)
    (hidx : ctx.Open "gz_msgs_foo.pb_index".toList = true)
    (hhdr : ctx.Open "gz/msgs/foo.gz.h".toList = true) :
    (NewHeader.deriveNames "gz/msgs/foo.proto".toList).identifier = "gz_msgs_foo".toList ∧
    (NewHeader.deriveNames "gz/msgs/foo.proto".toList).newHeaderFilename
      = "gz/msgs/details/foo.pb.h".toList ∧
    NewHeader.Generate ⟨"gz/msgs/foo.proto".toList, "gz.msgs".toList, ["Foo".toList]⟩ ctx =
      ⟨some true,
       [("gz_msgs_foo.pb_index".toList, "Foo\n".toList),
        ("gz/msgs/foo.gz.h".toList,
          ("\n// Generated by the protocol buffer compiler.  DO NOT EDIT!\n" ++
           "// source: gz/msgs/foo.proto\n" ++
           "\n" ++
           "#ifndef gz_msgs_foo\n" ++
           "#define gz_msgs_foo\n" ++
           "\n" ++
           "#include <memory>\n" ++
           "\n" ++
           "#include <gz/msgs/Export.hh>\n" ++
           "\n" ++
           "#include <gz/msgs/details/foo.pb.h>\n").toList
          ++ "namespace gz \x7b\n".toList
          ++ "namespace msgs \x7b\n".toList
          ++ "typedef std::unique_ptr<Foo> FooUniquePtr;".toList
          ++ ("\n" ++
              "typedef std::unique_ptr<const Foo> ConstFooUniquePtr;\n" ++
              "typedef std::shared_ptr<Foo> FooSharedPtr;\n" ++
              "typedef std::shared_ptr<const Foo> ConstFooSharedPtr;\n").toList
          ++ "\x7d  // namespace msgs\n".toList
          ++ "\x7d  // namespace gz\n".toList
          ++ "\n#endif  // gz_msgs_foo\n".toList)]⟩ := by
  refine ⟨by rw [NewHeader.deriveNames_foo], by rw [NewHeader.deriveNames_foo], ?_⟩
  rw [NewHeader.Generate_eq _ _ (by rw [NewHeader.deriveNames_foo]; exact hidx)
    (by rw [NewHeader.deriveNames_foo]; exact hhdr)]
  simp only [NewHeader.deriveNames_foo, getNamespaces_eq]
  decide

/-- C1, at the output directory that hands out every stream. -/
theorem C1_scenario_gz_msgs_foo_witness :
    (NewHeader.Generate ⟨"gz/msgs/foo.proto".toList, "gz.msgs".toList, ["Foo".toList]⟩
      ⟨fun _ => true, fun _ _ => true⟩).returned = some true :=
  by rw [(C1_scenario_gz_msgs_foo ⟨fun _ => true, fun _ _ => true⟩ rfl rfl).2.2]

/-! ## The layout of the header -/

namespace NewHeader

set_option maxRecDepth 100000 in
theorem c_str_ptrTypes (m : Str) (hm : Char.ofNat 0 ∉ m) : c_str (ptrTypes m) = ptrTypes m := by
  unfold c_str
  rw [List.takeWhile_eq_self_iff]
  intro x hx
  have hlit : ∀ l : Str, l ∈ ["typedef std::unique_ptr<".toList, "> ".toList, "UniquePtr;\n".toList,
      "typedef std::unique_ptr<const ".toList, "> Const".toList, "typedef std::shared_ptr<".toList,
      "SharedPtr;\n".toList, "typedef std::shared_ptr<const ".toList] → Char.ofNat 0 ∉ l := by
    decide
  have hne : x ≠ Char.ofNat 0 := by
    intro hx0
    subst hx0
    simp only [ptrTypes, List.mem_append] at hx
    rcases hx with ((((((h | h) | h) | h) | h) | ((((h | h) | h) | h) | h)) | ((((h | h) | h) | h) | h)) | ((((h | h) | h) | h) | h)
    all_goals first
      | exact hm h
      | exact hlit _ (by simp) h
  simpa using hne

end NewHeader

namespace NewHeader

theorem map_c_str_ptrTypes (ms : List Str) (hnul : ∀ m ∈ ms, Char.ofNat 0 ∉ m) :
    ms.map (fun m => c_str (ptrTypes m)) = ms.map ptrTypes := by
  apply List.map_congr_left
  intro m hm
  exact c_str_ptrTypes m (hnul m hm)

end NewHeader

set_option maxRecDepth 100000 in
/-- C2. For every descriptor whose message names hold no NUL character and every
output directory handing out the two streams, `Generate` returns `true` and
the text written to the header stream is exactly: (1) the preamble comment
naming the source file, `#ifndef <identifier>`, `#define <identifier>`, the
fixed includes and `#include <<detail header>>`; (2) one `namespace <c> {` line
per component of `getNamespaces`, outermost first; (3) the four alias
declarations of every message, in declaration order; (4) one
`}  // namespace <c>` line per component, innermost first; (5) an empty line and
`#endif  // <identifier>`; the identifier is the same in all three places and
nothing else is written.  No assumption on '$' is needed. -/
theorem C2_header_text (file : FileDescriptor) (ctx : OutputDirectory)
    (hidx : ctx.Open (NewHeader.deriveNames file.name).indexFilename = true)
    (hhdr : ctx.Open (NewHeader.deriveNames file.name).headerFilename = true)
    (hnul : ∀ m ∈ file.message_type, Char.ofNat 0 ∉ m) :
    ∃ index : Str × Str,
      NewHeader.Generate file ctx =
        ⟨some true,
         [index,
          ((NewHeader.deriveNames file.name).headerFilename,
            ("\n// Generated by the protocol buffer compiler.  DO NOT EDIT!\n".toList
              ++ "// source: ".toList ++ file.name ++ "\n".toList
              ++ "\n".toList
              ++ "#ifndef ".toList ++ (NewHeader.deriveNames file.name).identifier ++ "\n".toList
              ++ "#define ".toList ++ (NewHeader.deriveNames file.name).identifier ++ "\n".toList
              ++ "\n".toList
              ++ "#include <memory>\n".toList
              ++ "\n".toList
              ++ "#include <gz/msgs/Export.hh>\n".toList
              ++ "\n".toList
              ++ "#include <".toList ++ (NewHeader.deriveNames file.name).newHeaderFilename
              ++ ">\n".toList)
            ++ ((getNamespaces file.package).map
                  (fun c => "namespace ".toList ++ c ++ " \x7b\n".toList)).flatten
            ++ (file.message_type.map (fun m =>
                  "typedef std::unique_ptr<".toList ++ m ++ "> ".toList ++ m
                    ++ "UniquePtr;\n".toList
                  ++ ("typedef std::unique_ptr<const ".toList ++ m ++ "> Const".toList ++ m
                    ++ "UniquePtr;\n".toList)
                  ++ ("typedef std::shared_ptr<".toList ++ m ++ "> ".toList ++ m
                    ++ "SharedPtr;\n".toList)
                  ++ ("typedef std::shared_ptr<const ".toList ++ m ++ "> Const".toList ++ m
                    ++ "SharedPtr;\n".toList))).flatten
            ++ ((getNamespaces file.package).reverse.map
                  (fun c => "\x7d  // namespace ".toList ++ c ++ "\n".toList)).flatten
            ++ ("\n".toList
              ++ "#endif  // ".toList ++ (NewHeader.deriveNames file.name).identifier
              ++ "\n".toList))]⟩ := by
  refine ⟨((NewHeader.deriveNames file.name).indexFilename,
    (file.message_type.map (fun m => m ++ "\n".toList)).flatten), ?_⟩
  rw [NewHeader.Generate_eq file ctx hidx hhdr, NewHeader.map_c_str_ptrTypes _ hnul]
  have e1 : "\n// Generated by the protocol buffer compiler.  DO NOT EDIT!\n// source: ".toList
      = "\n// Generated by the protocol buffer compiler.  DO NOT EDIT!\n".toList
        ++ "// source: ".toList := by decide
  have e2 : "\n\n#ifndef ".toList = "\n".toList ++ ("\n".toList ++ "#ifndef ".toList) := by decide
  have e3 : "\n#define ".toList = "\n".toList ++ "#define ".toList := by decide
  have e4 : "\n\n#include <memory>\n\n#include <gz/msgs/Export.hh>\n\n#include <".toList
      = "\n".toList ++ ("\n".toList ++ ("#include <memory>\n".toList ++ ("\n".toList
        ++ ("#include <gz/msgs/Export.hh>\n".toList ++ ("\n".toList ++ "#include <".toList)))))
      := by decide
  rw [e1, e2, e3, e4]
  delta NewHeader.ptrTypes
  simp only [List.append_assoc]

/-- C2, at the scenario descriptor and the output directory that hands out every
stream. -/
theorem C2_header_text_witness :
    ∃ index : Str × Str, ∃ text : Str,
      NewHeader.Generate ⟨"gz/msgs/foo.proto".toList, "gz.msgs".toList, ["Foo".toList]⟩
        ⟨fun _ => true, fun _ _ => true⟩ = ⟨some true, [index, ("gz/msgs/foo.gz.h".toList, text)]⟩ := by
  obtain ⟨index, h⟩ := C2_header_text
    ⟨"gz/msgs/foo.proto".toList, "gz.msgs".toList, ["Foo".toList]⟩
    ⟨fun _ => true, fun _ _ => true⟩ rfl rfl (by decide)
  rw [NewHeader.deriveNames_foo] at h
  exact ⟨index, _, h⟩

/-! ## Lines of a text, and the index file -/

theorem splitLines_append_terminator (d : Char) (l rest : Str) (hl : d ∉ l) :
    splitLines d (l ++ d :: rest) = l :: splitLines d rest := by
  induction l with
  | nil => simp [splitLines]
  | cons x xs ih =>
    have hx : x ≠ d := fun h => hl (by simp [h])
    have hxs : d ∉ xs := fun h => hl (by simp [h])
    simp [splitLines, hx, ih hxs, consHead]

theorem splitLines_flatten (d : Char) (ls : List Str) (h : ∀ l ∈ ls, d ∉ l) :
    splitLines d ((ls.map (fun l => l ++ [d])).flatten) = ls := by
  induction ls with
  | nil => simp [splitLines]
  | cons l ls ih =>
    have h1 : d ∉ l := h l (by simp)
    have h2 : ∀ l ∈ ls, d ∉ l := fun l hl => h l (by simp [hl])
    simp only [List.map_cons, List.flatten_cons, List.append_assoc, List.singleton_append]
    rw [splitLines_append_terminator d l _ h1, ih h2]

/-- C4. For every descriptor whose message names hold no newline and every output
directory handing out the two streams, `Generate` returns `true` and the text
written to the index stream is the names, each followed by a newline, in
declaration order; split into lines it gives back the list of names exactly,
so it has as many lines as there are messages; with no message it
is empty. -/
theorem C4_index_round_trip (file : FileDescriptor) (ctx : OutputDirectory)
    (hidx : ctx.Open (NewHeader.deriveNames file.name).indexFilename = true)
    (hhdr : ctx.Open (NewHeader.deriveNames file.name).headerFilename = true)
    (hnl : ∀ m ∈ file.message_type, '\n' ∉ m) :
    ∃ (text : Str) (header : Str × Str),
      NewHeader.Generate file ctx
        = ⟨some true, [((NewHeader.deriveNames file.name).indexFilename, text), header]⟩ ∧
      text = (file.message_type.map (fun m => m ++ ['\n'])).flatten ∧
      splitLines '\n' text = file.message_type ∧
      (splitLines '\n' text).length = file.message_type.length ∧
      (file.message_type = [] → text = []) := by
  refine ⟨_, _, NewHeader.Generate_eq file ctx hidx hhdr, rfl, ?_, ?_, ?_⟩
  · exact splitLines_flatten '\n' _ hnl
  · exact congrArg List.length (splitLines_flatten '\n' _ hnl)
  · intro h
    rw [h]
    rfl

/-- C4, at a descriptor with two messages and the output directory that hands out
every stream. -/
theorem C4_index_round_trip_witness :
    ∃ (text : Str) (header : Str × Str),
      NewHeader.Generate ⟨"gz/msgs/foo.proto".toList, "gz.msgs".toList,
          ["Foo".toList, "Bar".toList]⟩ ⟨fun _ => true, fun _ _ => true⟩
        = ⟨some true, [("gz_msgs_foo.pb_index".toList, text), header]⟩ ∧
      splitLines '\n' text = ["Foo".toList, "Bar".toList] := by
  obtain ⟨text, header, h1, _, h2, _⟩ := C4_index_round_trip
    ⟨"gz/msgs/foo.proto".toList, "gz.msgs".toList, ["Foo".toList, "Bar".toList]⟩
    ⟨fun _ => true, fun _ _ => true⟩ rfl rfl (by decide)
  rw [NewHeader.deriveNames_foo] at h1
  exact ⟨text, header, h1, h2⟩

/-! ## Paths -/

namespace path

theorem names_of_not_mem (c : Str) (hc : '/' ∉ c) : names c = [c] := by
  induction c with
  | nil => rfl
  | cons x xs ih =>
    have hx : x ≠ '/' := fun h => hc (by simp [h])
    have hxs : '/' ∉ xs := fun h => hc (by simp [h])
    simp [names, hx, ih hxs, consHead]

theorem names_append_slash (c rest : Str) (hc : '/' ∉ c) (hr : rest.head? ≠ some '/') :
    names (c ++ '/' :: rest) = c :: names rest := by
  induction c with
  | nil => simp [names, hr]
  | cons x xs ih =>
    have hx : x ≠ '/' := fun h => hc (by simp [h])
    have hxs : '/' ∉ xs := fun h => hc (by simp [h])
    simp [names, hx, ih hxs, consHead]

theorem head?_ne_slash (c : Str) (rest : Str) (hc : '/' ∉ c) (hne : c ≠ []) :
    (c ++ rest).head? ≠ some '/' := by
  cases c with
  | nil => exact absurd rfl hne
  | cons x xs =>
    have hx : x ≠ '/' := fun h => hc (by simp [h])
    simpa using hx

theorem joinSep_cons (sep c : Str) (cs : List Str) (x : Str) :
    joinSep sep (c :: (cs ++ [x])) = c ++ sep ++ joinSep sep (cs ++ [x]) := by
  cases cs <;> rfl

theorem names_joinSep (cs : List Str) (fname : Str)
    (hcs : ∀ c ∈ cs, c ≠ [] ∧ '/' ∉ c) (hf : fname ≠ []) (hfs : '/' ∉ fname) :
    names (joinSep "/".toList (cs ++ [fname])) = cs ++ [fname] ∧
    (joinSep "/".toList (cs ++ [fname])).head? ≠ some '/' ∧
    joinSep "/".toList (cs ++ [fname]) ≠ [] := by
  induction cs with
  | nil =>
    refine ⟨by simpa [joinSep] using names_of_not_mem fname hfs, ?_, by simpa [joinSep] using hf⟩
    simpa [joinSep] using head?_ne_slash fname [] hfs hf
  | cons c cs ih =>
    have hc := hcs c (by simp)
    obtain ⟨ih1, ih2, _⟩ := ih (fun c hc => hcs c (by simp [hc]))
    rw [List.cons_append, joinSep_cons]
    refine ⟨?_, ?_, ?_⟩
    · have : c ++ "/".toList ++ joinSep "/".toList (cs ++ [fname])
          = c ++ '/' :: joinSep "/".toList (cs ++ [fname]) := by simp
      rw [this, names_append_slash c _ hc.2 ih2, ih1]
    · rw [List.append_assoc]
      exact head?_ne_slash c _ hc.2 hc.1
    · intro h
      simp at h

/-- The elements of the path `c1/.../ck/fname`. -/
theorem parse_joinSep (cs : List Str) (fname : Str)
    (hcs : ∀ c ∈ cs, c ≠ [] ∧ '/' ∉ c) (hf : fname ≠ []) (hfs : '/' ∉ fname) :
    parse (joinSep "/".toList (cs ++ [fname])) = cs ++ [fname] := by
  obtain ⟨h1, h2, h3⟩ := names_joinSep cs fname hcs hf hfs
  cases hj : joinSep "/".toList (cs ++ [fname]) with
  | nil => exact absurd hj h3
  | cons x xs =>
    rw [hj] at h1 h2
    have hx : x ≠ '/' := by simpa using h2
    simp [parse, hx, h1]

theorem has_relative_path_concat (cs : List Str) (fname : Str)
    (hcs : ∀ c ∈ cs, c ≠ [] ∧ '/' ∉ c) (hfs : '/' ∉ fname) :
    has_relative_path (cs ++ [fname]) = true := by
  cases cs with
  | nil =>
    have : fname ≠ ['/'] := fun h => hfs (by simp [h])
    simp [has_relative_path, this]
  | cons c cs =>
    have : c ≠ ['/'] := fun h => (hcs c (by simp)).2 (by simp [h])
    simp [has_relative_path, this]

end path

namespace path

theorem rfind_append_proto (s : Str) : rfind '.' (s ++ ".proto".toList) = some s.length := by
  induction s with
  | nil => decide
  | cons x xs ih =>
    show (match rfind '.' (xs ++ ".proto".toList) with
      | some k => some (k + 1)
      | none => if x = '.' then some 0 else none) = some (xs.length + 1)
    rw [ih]

/-- The stem of `s.proto` is `s`, for a non-empty `s`. -/
theorem stemOf_append_proto (s : Str) (hs : s ≠ []) : stemOf (s ++ ".proto".toList) = s := by
  cases s with
  | nil => exact absurd rfl hs
  | cons x xs =>
    have hlen : ¬ ((x :: xs) ++ ".proto".toList).length ≤ 2 := by
      simp only [List.length_append, List.length_cons]
      have : ".proto".toList.length = 6 := by decide
      omega
    unfold stemOf
    rw [if_neg (fun h => hlen h.1), rfind_append_proto]
    simp

theorem names_no_slash (s : Str) : ∀ e ∈ names s, '/' ∉ e := by
  induction s with
  | nil => simp [names]
  | cons c cs ih =>
    unfold names
    split
    · split
      · exact ih
      · intro e he
        rcases List.mem_cons.mp he with h | h
        · simp [h]
        · exact ih e h
    · rename_i hc
      intro e he
      cases hn : names cs with
      | nil =>
        rw [hn] at he
        simp [consHead] at he
        simp [he, Ne.symm hc]
      | cons h t =>
        rw [hn] at he ih
        simp only [consHead, List.mem_cons] at he
        rcases he with he | he
        · have := ih h (by simp)
          simp [he, Ne.symm hc, this]
        · exact ih e (by simp [he])

theorem parse_no_slash (f : Str) (hrel : f.head? ≠ some '/') : ∀ e ∈ parse f, '/' ∉ e := by
  cases f with
  | nil => simp [parse]
  | cons c cs =>
    have hc : c ≠ '/' := by simpa using hrel
    simp only [parse, hc, if_false]
    exact names_no_slash _

theorem parent_path_subset (elems : List Str) : ∀ e ∈ parent_path elems, e ∈ elems := by
  intro e he
  unfold parent_path at he
  split at he
  · exact List.mem_of_mem_dropLast he
  · exact he

theorem filename_no_slash (elems : List Str) (h : ∀ e ∈ elems, '/' ∉ e) :
    '/' ∉ filename elems := by
  unfold filename
  split
  · cases hl : elems.getLast? with
    | none => simp
    | some x => simpa using h x (List.mem_of_getLast?_eq_some hl)
  · simp

theorem stemOf_subset (f : Str) : ∀ x ∈ stemOf f, x ∈ f := by
  intro x hx
  unfold stemOf at hx
  split at hx
  · exact hx
  · split at hx
    · exact hx
    · exact hx
    · exact List.mem_of_mem_take hx

end path

namespace NewHeader

theorem foldl_prefixes (parts : List Str) (a b c d : Str) :
    parts.foldl
      (fun (acc : Prefixes) part =>
        (⟨acc.identifier ++ (part ++ "_".toList),
         acc.headerFilename ++ (part ++ "/".toList),
         acc.newHeaderFilename ++ (part ++ "/".toList),
         acc.sourceFilename ++ (part ++ "/".toList)⟩ : Prefixes))
      ⟨a, b, c, d⟩
    = ⟨a ++ (parts.map (fun p => p ++ "_".toList)).flatten,
       b ++ (parts.map (fun p => p ++ "/".toList)).flatten,
       c ++ (parts.map (fun p => p ++ "/".toList)).flatten,
       d ++ (parts.map (fun p => p ++ "/".toList)).flatten⟩ := by
  induction parts generalizing a b c d with
  | nil => simp
  | cons p ps ih =>
    simp only [List.foldl_cons, ih, List.map_cons, List.flatten_cons, List.append_assoc]

/-- The derived names in closed form. -/
theorem deriveNames_eq (name : Str) :
    deriveNames name =
      ⟨((path.parent_path (path.parse name)).map (fun p => p ++ "_".toList)).flatten
          ++ path.stem (path.parse name) ++ ".pb_index".toList,
       ((path.parent_path (path.parse name)).map (fun p => p ++ "_".toList)).flatten
          ++ path.stem (path.parse name),
       ((path.parent_path (path.parse name)).map (fun p => p ++ "/".toList)).flatten
          ++ (path.stem (path.parse name) ++ ".gz.h".toList),
       ((path.parent_path (path.parse name)).map (fun p => p ++ "/".toList)).flatten
          ++ ("details/".toList ++ path.stem (path.parse name) ++ ".pb.h".toList),
       ((path.parent_path (path.parse name)).map (fun p => p ++ "/".toList)).flatten
          ++ (path.stem (path.parse name) ++ ".pb.cc".toList)⟩ := by
  unfold deriveNames
  simp only [foldl_prefixes, List.nil_append]

theorem flatten_sep_eq_joinSep (sep : Str) (cs : List Str) (x : Str) :
    (cs.map (fun p => p ++ sep)).flatten ++ x = joinSep sep (cs ++ [x]) := by
  induction cs with
  | nil => simp [joinSep]
  | cons c cs ih =>
    rw [List.cons_append, path.joinSep_cons, ← ih]
    simp

/-- The derived names of the path `c1/.../ck/fname`. -/
theorem deriveNames_joinSep (cs : List Str) (fname : Str)
    (hcs : ∀ c ∈ cs, c ≠ [] ∧ '/' ∉ c) (hf : fname ≠ []) (hfs : '/' ∉ fname) :
    deriveNames (joinSep "/".toList (cs ++ [fname])) =
      ⟨joinSep "_".toList (cs ++ [path.stemOf fname]) ++ ".pb_index".toList,
       joinSep "_".toList (cs ++ [path.stemOf fname]),
       joinSep "/".toList (cs ++ [path.stemOf fname ++ ".gz.h".toList]),
       joinSep "/".toList (cs ++ ["details".toList, path.stemOf fname ++ ".pb.h".toList]),
       joinSep "/".toList (cs ++ [path.stemOf fname ++ ".pb.cc".toList])⟩ := by
  have hp : path.parent_path (cs ++ [fname]) = cs := by
    simp [path.parent_path, path.has_relative_path_concat cs fname hcs hfs]
  have hs : path.stem (cs ++ [fname]) = path.stemOf fname := by
    simp [path.stem, path.filename, path.has_relative_path_concat cs fname hcs hfs]
  have hd : (cs.map (fun p => p ++ "/".toList)).flatten
      ++ ("details/".toList ++ path.stemOf fname ++ ".pb.h".toList)
      = joinSep "/".toList (cs ++ ["details".toList, path.stemOf fname ++ ".pb.h".toList]) := by
    have : cs ++ ["details".toList, path.stemOf fname ++ ".pb.h".toList]
        = (cs ++ ["details".toList]) ++ [path.stemOf fname ++ ".pb.h".toList] := by simp
    rw [this, ← flatten_sep_eq_joinSep]
    simp only [List.map_append, List.flatten_append, List.map_cons, List.map_nil,
      List.flatten_cons, List.flatten_nil, List.append_nil, List.append_assoc]
    rfl
  rw [deriveNames_eq, path.parse_joinSep cs fname hcs hf hfs, hp, hs, hd]
  rw [flatten_sep_eq_joinSep, flatten_sep_eq_joinSep, flatten_sep_eq_joinSep]

end NewHeader

/-! ## The identifier and the file names -/

/-- C7, as stated, fails: "gz/msgs/foo.proto" has the directory components "gz",
"msgs" and the stem "foo"; its identifier is "gz_msgs_foo", while
`join(["gz", "msgs"], "_")` followed by the stem is "gz_msgsfoo". -/
theorem C7_identifier_counterexample :
    path.parent_path (path.parse "gz/msgs/foo.proto".toList) = ["gz".toList, "msgs".toList] ∧
    path.stem (path.parse "gz/msgs/foo.proto".toList) = "foo".toList ∧
    (NewHeader.deriveNames "gz/msgs/foo.proto".toList).identifier = "gz_msgs_foo".toList ∧
    joinSep "_".toList ["gz".toList, "msgs".toList] ++ "foo".toList = "gz_msgsfoo".toList ∧
    (NewHeader.deriveNames "gz/msgs/foo.proto".toList).identifier
      ≠ joinSep "_".toList ["gz".toList, "msgs".toList] ++ "foo".toList := by
  decide

/-- C7, amended. For every relative path `c1/.../ck/fname` (the `ci` and `fname`
non-empty and without '/'), the identifier is the components and the stem of
`fname` joined by "_": every directory component is followed by "_", the last
one too, and then comes the stem. -/
theorem C7_identifier (cs : List Str) (fname : Str)
    (hcs : ∀ c ∈ cs, c ≠ [] ∧ '/' ∉ c) (hf : fname ≠ []) (hfs : '/' ∉ fname) :
    (NewHeader.deriveNames (joinSep "/".toList (cs ++ [fname]))).identifier
      = joinSep "_".toList (cs ++ [path.stemOf fname]) ∧
    joinSep "_".toList (cs ++ [path.stemOf fname])
      = (cs.map (fun c => c ++ "_".toList)).flatten ++ path.stemOf fname := by
  rw [NewHeader.deriveNames_joinSep cs fname hcs hf hfs]
  exact ⟨rfl, (NewHeader.flatten_sep_eq_joinSep _ _ _).symm⟩

/-- C7 amended, at "gz/msgs/foo.proto". -/
theorem C7_identifier_witness :
    (NewHeader.deriveNames (joinSep "/".toList
        (["gz".toList, "msgs".toList] ++ ["foo.proto".toList]))).identifier
      = "gz_msgs_foo".toList := by
  rw [(C7_identifier ["gz".toList, "msgs".toList] "foo.proto".toList
    (by decide) (by decide) (by decide)).1]
  decide

/-- C8. For every file name that does not start with '/', the identifier holds no
'/'. -/
theorem C8_identifier_no_slash (f : Str) (hrel : f.head? ≠ some '/') :
    '/' ∉ (NewHeader.deriveNames f).identifier := by
  rw [NewHeader.deriveNames_eq]
  simp only [List.mem_append, List.mem_flatten, List.mem_map, not_or, not_exists, not_and]
  have hparse := path.parse_no_slash f hrel
  constructor
  · rintro l ⟨p, hp, rfl⟩ hmem
    rcases List.mem_append.mp hmem with h | h
    · exact hparse p (path.parent_path_subset _ p hp) h
    · revert h; decide
  · intro h
    exact path.filename_no_slash _ hparse (path.stemOf_subset _ _ h)

/-- C8, at "gz/msgs/foo.proto". -/
theorem C8_identifier_no_slash_witness :
    "gz/msgs/foo.proto".toList.head? ≠ some '/' ∧
    '/' ∉ (NewHeader.deriveNames "gz/msgs/foo.proto".toList).identifier :=
  ⟨by decide, C8_identifier_no_slash "gz/msgs/foo.proto".toList (by decide)⟩

/-- C9. For every relative path `c1/.../ck/s.proto` (`k >= 0`; the `ci` and `s`
non-empty and without '/'): the header file name is `c1/.../ck/s.gz.h` and the
detail header is `c1/.../ck/details/s.pb.h`; for `k = 0` they are `s.gz.h` and
`details/s.pb.h`; and for every package, message list and output directory
handing out every stream, `Generate` returns `true` having written the
header under that file name, with the line including that detail header in
it. -/
theorem C9_header_paths (cs : List Str) (s : Str)
    (hcs : ∀ c ∈ cs, c ≠ [] ∧ '/' ∉ c) (hs : s ≠ []) (hss : '/' ∉ s) :
    (NewHeader.deriveNames (joinSep "/".toList (cs ++ [s ++ ".proto".toList]))).headerFilename
      = joinSep "/".toList (cs ++ [s ++ ".gz.h".toList]) ∧
    (NewHeader.deriveNames (joinSep "/".toList (cs ++ [s ++ ".proto".toList]))).newHeaderFilename
      = joinSep "/".toList (cs ++ ["details".toList, s ++ ".pb.h".toList]) ∧
    (cs = [] →
      (NewHeader.deriveNames (s ++ ".proto".toList)).headerFilename = s ++ ".gz.h".toList ∧
      (NewHeader.deriveNames (s ++ ".proto".toList)).newHeaderFilename
        = "details/".toList ++ s ++ ".pb.h".toList) ∧
    ∀ (package : Str) (messages : List Str) (ctx : OutputDirectory),
      (∀ p, ctx.Open p = true) →
      ∃ (index : Str × Str) (before after : Str),
        NewHeader.Generate
            ⟨joinSep "/".toList (cs ++ [s ++ ".proto".toList]), package, messages⟩ ctx
          = ⟨some true,
             [index,
              (joinSep "/".toList (cs ++ [s ++ ".gz.h".toList]),
               before ++ "#include <".toList
                 ++ joinSep "/".toList (cs ++ ["details".toList, s ++ ".pb.h".toList])
                 ++ ">\n".toList ++ after)]⟩ := by
  have hf : s ++ ".proto".toList ≠ [] := by simp [hs]
  have hfs : '/' ∉ s ++ ".proto".toList := by
    intro h
    rcases List.mem_append.mp h with h | h
    · exact hss h
    · revert h; decide
  have hd := NewHeader.deriveNames_joinSep cs (s ++ ".proto".toList) hcs hf hfs
  rw [path.stemOf_append_proto s hs] at hd
  refine ⟨by rw [hd], by rw [hd], ?_, ?_⟩
  · intro hnil
    subst hnil
    have h0 : joinSep "/".toList ([] ++ [s ++ ".proto".toList]) = s ++ ".proto".toList := rfl
    rw [h0] at hd
    rw [hd]
    exact ⟨rfl, by simp [joinSep]⟩
  · intro package messages ctx hopen
    have hg := NewHeader.Generate_eq
      ⟨joinSep "/".toList (cs ++ [s ++ ".proto".toList]), package, messages⟩ ctx
      (hopen _) (hopen _)
    rw [hg]
    simp only [hd]
    refine ⟨(joinSep "_".toList (cs ++ [s]) ++ ".pb_index".toList,
      (messages.map (fun m => m ++ "\n".toList)).flatten),
      "\n// Generated by the protocol buffer compiler.  DO NOT EDIT!\n// source: ".toList
      ++ (joinSep "/".toList (cs ++ [s ++ ".proto".toList]) ++ ("\n\n#ifndef ".toList
      ++ (joinSep "_".toList (cs ++ [s]) ++ ("\n#define ".toList
      ++ (joinSep "_".toList (cs ++ [s])
      ++ "\n\n#include <memory>\n\n#include <gz/msgs/Export.hh>\n\n".toList))))),
      ((getNamespaces package).map
          (fun c => "namespace ".toList ++ c ++ " \x7b\n".toList)).flatten
        ++ ((messages.map (fun m => c_str (NewHeader.ptrTypes m))).flatten
        ++ (((getNamespaces package).reverse.map
          (fun c => "\x7d  // namespace ".toList ++ c ++ "\n".toList)).flatten
        ++ ("\n".toList ++ ("#endif  // ".toList
        ++ (joinSep "_".toList (cs ++ [s]) ++ "\n".toList))))), ?_⟩
    have e : "\n\n#include <memory>\n\n#include <gz/msgs/Export.hh>\n\n#include <".toList
        = "\n\n#include <memory>\n\n#include <gz/msgs/Export.hh>\n\n".toList
          ++ "#include <".toList := by decide
    rw [e]
    simp only [List.append_assoc]

/-- C9, at "gz/msgs/foo.proto" and at the top-level "foo.proto". -/
theorem C9_header_paths_witness :
    (NewHeader.deriveNames (joinSep "/".toList
        (["gz".toList, "msgs".toList] ++ ["foo".toList ++ ".proto".toList]))).headerFilename
      = "gz/msgs/foo.gz.h".toList ∧
    (NewHeader.deriveNames ("foo".toList ++ ".proto".toList)).newHeaderFilename
      = "details/foo.pb.h".toList := by
  refine ⟨?_, ?_⟩
  · rw [(C9_header_paths ["gz".toList, "msgs".toList] "foo".toList
      (by decide) (by decide) (by decide)).1]
    decide
  · rw [((C9_header_paths [] "foo".toList (by decide) (by decide) (by decide)).2.2.1 rfl).2]
    decide

/-! ## replaceAll with "." and "::" -/

theorem findFrom_dot_skip (d r : Str) (k : Nat) (hd : '.' ∉ d) :
    findFrom ['.'] (d ++ r) k = findFrom ['.'] r (k + d.length) := by
  induction d generalizing k with
  | nil => simp
  | cons x xs ih =>
    have hx : x ≠ '.' := fun h => hd (by simp [h])
    have hxs : '.' ∉ xs := fun h => hd (by simp [h])
    have hp : List.isPrefixOf ['.'] (x :: (xs ++ r)) = false := by
      simp [List.isPrefixOf, Ne.symm hx]
    show (if List.isPrefixOf ['.'] (x :: (xs ++ r)) = true then k
      else findFrom ['.'] (xs ++ r) (k + 1)) = findFrom ['.'] r (k + (x :: xs).length)
    rw [hp, if_neg (by simp), ih (k + 1) hxs]
    congr 1
    simp only [List.length_cons]
    omega

theorem find_dot (d1 d2 r : Str) (hd : '.' ∉ d2) :
    find (d1 ++ d2 ++ r) ['.'] d1.length = findFrom ['.'] r (d1.length + d2.length) := by
  unfold find
  have hle : d1.length ≤ (d1 ++ d2 ++ r).length := by
    simp only [List.length_append]; omega
  rw [if_pos hle, List.append_assoc, List.drop_left, findFrom_dot_skip d2 r _ hd]

theorem replaceAllLoop_dot (rest : Str) : ∀ (fuel : Nat) (d1 d2 : Str),
    '.' ∉ d2 → rest.count '.' < fuel →
    d1.length + d2.length + rest.length + rest.count '.' < 2 ^ 64 →
    replaceAllLoop fuel (d1 ++ d2 ++ rest) ['.'] [':', ':'] d1.length
      = some (d1 ++ d2 ++ replaceChar '.' [':', ':'] rest) := by
  induction rest with
  | nil =>
    intro fuel d1 d2 hd hfuel _
    cases fuel with
    | zero => omega
    | succ fuel =>
      unfold replaceAllLoop
      simp only [find_dot d1 d2 [] hd]
      simp [findFrom, replaceChar]
  | cons c cs ih =>
    intro fuel d1 d2 hd hfuel hlen
    by_cases hc : c = '.'
    · subst hc
      cases fuel with
      | zero => omega
      | succ fuel =>
        simp only [List.count_cons_self, List.length_cons] at hfuel hlen
        unfold replaceAllLoop
        simp only [find_dot d1 d2 ('.' :: cs) hd]
        have hff : findFrom ['.'] ('.' :: cs) (d1.length + d2.length) = d1.length + d2.length := by
          simp [findFrom, List.isPrefixOf]
        rw [hff]
        have hnp : d1.length + d2.length ≠ npos := by
          unfold npos; omega
        simp only [hnp, if_false]
        have hrep : replace (d1 ++ d2 ++ '.' :: cs) (d1.length + d2.length) ['.'].length [':', ':']
            = (d1 ++ d2 ++ [':', ':']) ++ [] ++ cs := by
          unfold replace
          have h1 : (d1 ++ d2 ++ '.' :: cs).take (d1.length + d2.length) = d1 ++ d2 := by
            rw [← List.length_append]; exact List.take_left _ _
          have h2 : (d1 ++ d2 ++ '.' :: cs).drop (d1.length + d2.length + ['.'].length) = cs := by
            have : d1 ++ d2 ++ '.' :: cs = (d1 ++ d2 ++ ['.']) ++ cs := by simp
            rw [this]
            have hl : d1.length + d2.length + ['.'].length = (d1 ++ d2 ++ ['.']).length := by
              simp only [List.length_append]
            rw [hl]; exact List.drop_left _ _
          rw [h1, h2]; simp
        have hi : sizeAdd (d1.length + d2.length)
            (sizeAdd (sizeSub [':', ':'].length ['.'].length) 1)
            = (d1 ++ d2 ++ [':', ':']).length := by
          simp only [sizeAdd, sizeSub, List.length_cons, List.length_nil, List.length_append]
          omega
        rw [hrep, hi]
        rw [ih fuel (d1 ++ d2 ++ [':', ':']) [] (by simp) (by omega)
          (by simp only [List.length_append, List.length_cons, List.length_nil]; omega)]
        simp [replaceChar]
    · have hcount : (c :: cs).count '.' = cs.count '.' := by
        rw [List.count_cons_of_ne (Ne.symm hc)]
      have h := ih fuel d1 (d2 ++ [c])
        (by
          intro hm
          rcases List.mem_append.mp hm with h | h
          · exact hd h
          · simp at h; exact hc h.symm)
        (by omega)
        (by simp only [List.length_append, List.length_cons, List.length_nil] at hlen ⊢; omega)
      have e : d1 ++ d2 ++ c :: cs = d1 ++ (d2 ++ [c]) ++ cs := by simp
      rw [e, h]
      simp [replaceChar, hc]

theorem replaceChar_no_mem (s : Str) : '.' ∉ replaceChar '.' [':', ':'] s := by
  induction s with
  | nil => simp [replaceChar]
  | cons x xs ih =>
    by_cases hx : x = '.'
    · simp [replaceChar, hx, ih]
    · simp [replaceChar, hx, ih, Ne.symm hx]

theorem countOccurrences_dot_eq_zero (s : Str) (h : '.' ∉ s) : countOccurrences ['.'] s = 0 := by
  induction s with
  | nil => simp [countOccurrences]
  | cons x xs ih =>
    have hx : x ≠ '.' := fun e => h (by simp [e])
    have hxs : '.' ∉ xs := fun e => h (by simp [e])
    simp [countOccurrences, List.isPrefixOf, Ne.symm hx, ih hxs]

/-- C10. For every string `s` whose result fits a `size_t` length, `replaceAll(s, ".",
"::")` ends (any bound on the loop tests above the number of '.' in `s` is
enough) and the string it leaves holds zero occurrences of ".". -/
theorem C10_replaceAll_no_dot_left (s : Str) (hlen : s.length + s.count '.' < 2 ^ 64) :
    ∃ r : Str,
      (∀ fuel, s.count '.' < fuel → replaceAll fuel s ".".toList "::".toList = some r) ∧
      countOccurrences ".".toList r = 0 ∧ '.' ∉ r := by
  refine ⟨replaceChar '.' [':', ':'] s, ?_, ?_, replaceChar_no_mem s⟩
  · intro fuel hfuel
    have h := replaceAllLoop_dot s fuel [] [] (by simp) hfuel (by simpa using hlen)
    simpa [replaceAll] using h
  · exact countOccurrences_dot_eq_zero _ (replaceChar_no_mem s)

/-- C10, at "gz.msgs.v1". -/
theorem C10_replaceAll_no_dot_left_witness :
    "gz.msgs.v1".toList.length + "gz.msgs.v1".toList.count '.' < 2 ^ 64 ∧
    ∃ r : Str, replaceAll 3 "gz.msgs.v1".toList ".".toList "::".toList = some r ∧
      countOccurrences ".".toList r = 0 :=
  ⟨by decide,
   (C10_replaceAll_no_dot_left "gz.msgs.v1".toList (by decide)).elim
     (fun r h => ⟨r, h.1 3 (by decide), h.2.1⟩)⟩

/-! ## The nesting depth -/

theorem splitOnChar_splitLines (d : Char) (s : Str) :
    (∃ init, splitOnChar d s = init ++ [[]] ∧ splitLines d s = init) ∨
    (∃ init l, l ≠ [] ∧ splitOnChar d s = init ++ [l] ∧ splitLines d s = init ++ [l]) := by
  induction s with
  | nil => exact Or.inl ⟨[], rfl, rfl⟩
  | cons c cs ih =>
    by_cases hc : c = d
    · rcases ih with ⟨init, h1, h2⟩ | ⟨init, l, hl, h1, h2⟩
      · exact Or.inl ⟨[] :: init, by simp [splitOnChar, hc, h1], by simp [splitLines, hc, h2]⟩
      · exact Or.inr ⟨[] :: init, l, hl, by simp [splitOnChar, hc, h1],
          by simp [splitLines, hc, h2]⟩
    · rcases ih with ⟨init, h1, h2⟩ | ⟨init, l, hl, h1, h2⟩
      · cases init with
        | nil =>
          exact Or.inr ⟨[], [c], by simp, by simp [splitOnChar, hc, h1, consHead],
            by simp [splitLines, hc, h2, consHead]⟩
        | cons h t =>
          exact Or.inl ⟨(c :: h) :: t, by simp [splitOnChar, hc, h1, consHead],
            by simp [splitLines, hc, h2, consHead]⟩
      · cases init with
        | nil =>
          exact Or.inr ⟨[], c :: l, by simp, by simp [splitOnChar, hc, h1, consHead],
            by simp [splitLines, hc, h2, consHead]⟩
        | cons h t =>
          exact Or.inr ⟨(c :: h) :: t, l, hl, by simp [splitOnChar, hc, h1, consHead],
            by simp [splitLines, hc, h2, consHead]⟩

/-- C6, as stated, fails: the package "gz..msgs" gives three namespace lines (for
"gz", "" and "msgs"), while splitting it on '.' gives two non-empty
components. -/
theorem C6_nesting_depth_counterexample :
    getNamespaces "gz..msgs".toList = ["gz".toList, [], "msgs".toList] ∧
    (getNamespaces "gz..msgs".toList).length = 3 ∧
    ((splitOnChar '.' "gz..msgs".toList).filter (fun c => decide (c ≠ []))).length = 2 ∧
    (getNamespaces "gz..msgs".toList).length
      ≠ ((splitOnChar '.' "gz..msgs".toList).filter (fun c => decide (c ≠ []))).length := by
  rw [getNamespaces_eq]
  decide

/-- C6, amended. For every package string in which no component other than the last
is empty, the number of namespace lines, the length of `getNamespaces`, is
the number of non-empty components obtained by splitting the package on
'.'. -/
theorem C6_nesting_depth (p : Str)
    (h : ∀ c ∈ (splitOnChar '.' p).dropLast, c ≠ []) :
    (getNamespaces p).length
      = ((splitOnChar '.' p).filter (fun c => decide (c ≠ []))).length := by
  rw [getNamespaces_eq]
  rcases splitOnChar_splitLines '.' p with ⟨init, h1, h2⟩ | ⟨init, l, hl, h1, h2⟩
  · rw [h1] at h ⊢
    rw [h2]
    simp only [List.dropLast_concat] at h
    rw [List.filter_append]
    have hf : init.filter (fun c => decide (c ≠ [])) = init :=
      List.filter_eq_self.mpr (fun c hc => by simpa using h c hc)
    rw [hf]
    simp
  · rw [h1] at h ⊢
    rw [h2]
    simp only [List.dropLast_concat] at h
    have hf : (init ++ [l]).filter (fun c => decide (c ≠ [])) = init ++ [l] :=
      List.filter_eq_self.mpr (fun c hc => by
        rcases List.mem_append.mp hc with hc | hc
        · simpa using h c hc
        · simp at hc; simpa [hc] using hl)
    rw [hf]

/-- C6 amended, at the package "gz.msgs". -/
theorem C6_nesting_depth_witness :
    (getNamespaces "gz.msgs".toList).length = 2 := by
  rw [C6_nesting_depth "gz.msgs".toList (by decide)]
  decide

/-! ## The lines of the header -/

theorem nsOpenName_open (c : Str) :
    nsOpenName ("namespace ".toList ++ c ++ " \x7b".toList) = some c := by
  have h1 : ("namespace ".toList ++ c ++ " \x7b".toList).drop 10 = c ++ " \x7b".toList := by
    rw [List.append_assoc]
    exact List.drop_left "namespace ".toList _
  have h2 : (c ++ " \x7b".toList).take ((c ++ " \x7b".toList).length - 2) = c := by
    have : (c ++ " \x7b".toList).length - 2 = c.length := by
      simp only [List.length_append]
      have : " \x7b".toList.length = 2 := by decide
      omega
    rw [this]
    exact List.take_left _ _
  unfold nsOpenName
  simp only [h1, h2, if_true]

theorem nsOpenName_none (line : Str) (h : line.head? ≠ some 'n') : nsOpenName line = none := by
  unfold nsOpenName
  simp only
  split
  · rename_i he
    exfalso
    apply h
    rw [he]
    rfl
  · rfl

theorem nsCloseName_close (c : Str) :
    nsCloseName ("\x7d  // namespace ".toList ++ c) = some c := by
  have h1 : ("\x7d  // namespace ".toList ++ c).drop 16 = c :=
    List.drop_left "\x7d  // namespace ".toList _
  unfold nsCloseName
  simp only [h1, if_true]

theorem nsCloseName_none (line : Str) (h : line.head? ≠ some '\x7d') :
    nsCloseName line = none := by
  unfold nsCloseName
  split
  · rename_i he
    exfalso
    apply h
    rw [he]
    rfl
  · rfl

theorem isTypedefLine_false (line : Str) (h : line.head? ≠ some 't') :
    isTypedefLine line = false := by
  cases line with
  | nil => rfl
  | cons x xs =>
    have hx : x ≠ 't' := by simpa using h
    simp [isTypedefLine, List.isPrefixOf, Ne.symm hx]

theorem joinLines_append (a b : List Str) : joinLines (a ++ b) = joinLines a ++ joinLines b := by
  simp [joinLines]

theorem joinLines_cons (l : Str) (ls : List Str) :
    joinLines (l :: ls) = l ++ ('\n' :: joinLines ls) := by
  simp [joinLines]

theorem joinLines_nil : joinLines [] = [] := rfl

theorem splitLines_joinLines (ls : List Str) (h : ∀ l ∈ ls, '\n' ∉ l) :
    splitLines '\n' (joinLines ls) = ls :=
  splitLines_flatten '\n' ls h

set_option maxRecDepth 100000 in
theorem joinLines_preambleLines (f g d rest : Str) :
    "\n// Generated by the protocol buffer compiler.  DO NOT EDIT!\n// source: ".toList
        ++ (f ++ ("\n\n#ifndef ".toList ++ (g ++ ("\n#define ".toList ++ (g
        ++ ("\n\n#include <memory>\n\n#include <gz/msgs/Export.hh>\n\n#include <".toList
        ++ (d ++ (">\n".toList ++ rest))))))))
      = joinLines (preambleLines f g d) ++ rest := by
  simp only [preambleLines, joinLines_cons, joinLines_nil, List.append_assoc, List.nil_append,
    List.append_nil]
  have e1 : "\n// Generated by the protocol buffer compiler.  DO NOT EDIT!\n// source: ".toList
      = '\n' :: ("// Generated by the protocol buffer compiler.  DO NOT EDIT!".toList
        ++ '\n' :: "// source: ".toList) := by decide
  have e2 : "\n\n#ifndef ".toList = '\n' :: '\n' :: "#ifndef ".toList := by decide
  have e3 : "\n#define ".toList = '\n' :: "#define ".toList := by decide
  have e4 : "\n\n#include <memory>\n\n#include <gz/msgs/Export.hh>\n\n#include <".toList
      = '\n' :: '\n' :: ("#include <memory>".toList ++ '\n' :: '\n'
        :: ("#include <gz/msgs/Export.hh>".toList ++ '\n' :: '\n' :: "#include <".toList))
      := by decide
  have e5 : ">\n".toList = ">".toList ++ ['\n'] := by decide
  rw [e1, e2, e3, e4, e5]
  simp only [List.append_assoc, List.cons_append, List.nil_append]

set_option maxRecDepth 100000 in
theorem joinLines_aliasLines (m : Str) : joinLines (aliasLines m) = NewHeader.ptrTypes m := by
  simp only [aliasLines, joinLines_cons, joinLines_nil, NewHeader.ptrTypes, List.append_assoc]
  have e1 : "UniquePtr;\n".toList = "UniquePtr;".toList ++ ['\n'] := by decide
  have e2 : "SharedPtr;\n".toList = "SharedPtr;".toList ++ ['\n'] := by decide
  rw [e1, e2]
  simp only [List.append_assoc, List.cons_append, List.nil_append, List.append_nil]

theorem joinLines_flatten_aliasLines (ms : List Str) :
    joinLines (ms.map aliasLines).flatten = (ms.map NewHeader.ptrTypes).flatten := by
  induction ms with
  | nil => rfl
  | cons m ms ih =>
    simp only [List.map_cons, List.flatten_cons, joinLines_append, ih, joinLines_aliasLines]

theorem joinLines_open (ns : List Str) :
    joinLines (ns.map (fun c => "namespace ".toList ++ c ++ " \x7b".toList))
      = (ns.map (fun c => "namespace ".toList ++ c ++ " \x7b\n".toList)).flatten := by
  induction ns with
  | nil => rfl
  | cons n ns ih =>
    have e : " \x7b\n".toList = " \x7b".toList ++ ['\n'] := by decide
    rw [List.map_cons, joinLines_cons, ih, List.map_cons, List.flatten_cons]
    conv => rhs; arg 1; rw [e]
    simp only [List.append_assoc, List.cons_append, List.nil_append]

theorem joinLines_close (ns : List Str) :
    joinLines (ns.map (fun c => "\x7d  // namespace ".toList ++ c))
      = (ns.map (fun c => "\x7d  // namespace ".toList ++ c ++ "\n".toList)).flatten := by
  induction ns with
  | nil => rfl
  | cons n ns ih =>
    have e : "\n".toList = ['\n'] := by decide
    simp only [List.map_cons, joinLines_cons, ih, List.flatten_cons, e, List.append_assoc,
      List.cons_append, List.nil_append]

theorem splitLines_subset (d : Char) (s : Str) : ∀ e ∈ splitLines d s, ∀ x ∈ e, x ∈ s := by
  induction s with
  | nil => simp [splitLines]
  | cons c cs ih =>
    intro e he x hx
    unfold splitLines at he
    split at he
    · rcases List.mem_cons.mp he with h | h
      · subst h; simp at hx
      · exact List.mem_cons_of_mem _ (ih e h x hx)
    · cases hn : splitLines d cs with
      | nil =>
        rw [hn] at he
        simp only [consHead, List.mem_singleton] at he
        subst he
        simp only [List.mem_singleton] at hx
        simp [hx]
      | cons h t =>
        rw [hn] at he ih
        simp only [consHead, List.mem_cons] at he
        rcases he with he | he
        · subst he
          rcases List.mem_cons.mp hx with hx | hx
          · simp [hx]
          · exact List.mem_cons_of_mem _ (ih h (by simp) x hx)
        · exact List.mem_cons_of_mem _ (ih e (by simp [he]) x hx)

namespace path

theorem names_subset (s : Str) : ∀ e ∈ names s, ∀ x ∈ e, x ∈ s := by
  induction s with
  | nil => simp [names]
  | cons c cs ih =>
    intro e he x hx
    unfold names at he
    split at he
    · split at he
      · exact List.mem_cons_of_mem _ (ih e he x hx)
      · rcases List.mem_cons.mp he with h | h
        · subst h; simp at hx
        · exact List.mem_cons_of_mem _ (ih e h x hx)
    · cases hn : names cs with
      | nil =>
        rw [hn] at he
        simp only [consHead, List.mem_singleton] at he
        subst he
        simp only [List.mem_singleton] at hx
        simp [hx]
      | cons h t =>
        rw [hn] at he ih
        simp only [consHead, List.mem_cons] at he
        rcases he with he | he
        · subst he
          rcases List.mem_cons.mp hx with hx | hx
          · simp [hx]
          · exact List.mem_cons_of_mem _ (ih h (by simp) x hx)
        · exact List.mem_cons_of_mem _ (ih e (by simp [he]) x hx)

theorem parse_subset (f : Str) : ∀ e ∈ parse f, ∀ x ∈ e, x ∈ f := by
  cases f with
  | nil => simp [parse]
  | cons c cs =>
    intro e he x hx
    unfold parse at he
    simp only at he
    split at he
    · rename_i hc
      rcases List.mem_cons.mp he with h | h
      · subst h
        simp only [List.mem_singleton] at hx
        simp [hx, hc]
      · split at h
        · simp at h
        · have := names_subset _ e h x hx
          exact List.mem_cons_of_mem _ ((List.dropWhile_sublist _).subset this)
    · exact names_subset _ e he x hx

theorem filename_subset (elems : List Str) :
    ∀ x ∈ filename elems, ∃ e ∈ elems, x ∈ e := by
  intro x hx
  unfold filename at hx
  split at hx
  · cases hl : elems.getLast? with
    | none => rw [hl] at hx; simp at hx
    | some l =>
      rw [hl] at hx
      exact ⟨l, List.mem_of_getLast?_eq_some hl, by simpa using hx⟩
  · simp at hx

end path

namespace NewHeader

/-- A newline in a derived name can only come from the file name. -/
theorem deriveNames_no_newline (f : Str) (hf : '\n' ∉ f) :
    '\n' ∉ (deriveNames f).identifier ∧ '\n' ∉ (deriveNames f).newHeaderFilename := by
  have hparts : ∀ p ∈ path.parent_path (path.parse f), '\n' ∉ p := fun p hp h =>
    hf (path.parse_subset f p (path.parent_path_subset _ p hp) _ h)
  have hstem : '\n' ∉ path.stem (path.parse f) := by
    intro h
    obtain ⟨e, he, hx⟩ := path.filename_subset _ _ (path.stemOf_subset _ _ h)
    exact hf (path.parse_subset f e he _ hx)
  rw [deriveNames_eq]
  simp only [List.mem_append, List.mem_flatten, List.mem_map, not_or, not_exists, not_and]
  refine ⟨⟨?_, hstem⟩, ⟨?_, ⟨?_, hstem⟩, ?_⟩⟩
  · rintro l ⟨p, hp, rfl⟩ hmem
    rcases List.mem_append.mp hmem with h | h
    · exact hparts p hp h
    · revert h; decide
  · rintro l ⟨p, hp, rfl⟩ hmem
    rcases List.mem_append.mp hmem with h | h
    · exact hparts p hp h
    · revert h; decide
  · decide
  · decide

end NewHeader

namespace NewHeader

set_option maxRecDepth 100000 in
/-- The header as a list of lines: for names without newline (and message
names without NUL) the text written to the header stream, split into lines,
is the preamble, the opening lines, the alias lines, the closing lines, an
empty line and the `#endif` line. -/
theorem header_lines (file : FileDescriptor) (ctx : OutputDirectory)
    (hidx : ctx.Open (deriveNames file.name).indexFilename = true)
    (hhdr : ctx.Open (deriveNames file.name).headerFilename = true)
    (hnul : ∀ m ∈ file.message_type, Char.ofNat 0 ∉ m)
    (hname : '\n' ∉ file.name) (hpkg : '\n' ∉ file.package)
    (hmsg : ∀ m ∈ file.message_type, '\n' ∉ m) :
    ∃ (index : Str × Str) (text : Str),
      Generate file ctx = ⟨some true, [index, ((deriveNames file.name).headerFilename, text)]⟩ ∧
      splitLines '\n' text =
        preambleLines file.name (deriveNames file.name).identifier
            (deriveNames file.name).newHeaderFilename
          ++ (getNamespaces file.package).map
              (fun c => "namespace ".toList ++ c ++ " \x7b".toList)
          ++ (file.message_type.map aliasLines).flatten
          ++ (getNamespaces file.package).reverse.map
              (fun c => "\x7d  // namespace ".toList ++ c)
          ++ [[], "#endif  // ".toList ++ (deriveNames file.name).identifier] := by
  obtain ⟨hid, hdet⟩ := deriveNames_no_newline file.name hname
  have hns : ∀ c ∈ getNamespaces file.package, '\n' ∉ c := by
    intro c hc h
    rw [getNamespaces_eq] at hc
    exact hpkg (splitLines_subset '.' _ c hc _ h)
  refine ⟨((deriveNames file.name).indexFilename,
    (file.message_type.map (fun m => m ++ "\n".toList)).flatten), joinLines _, ?_,
    splitLines_joinLines _ ?_⟩
  · rw [Generate_eq file ctx hidx hhdr, map_c_str_ptrTypes _ hnul, joinLines_preambleLines]
    simp only [joinLines_append, joinLines_open, joinLines_close, joinLines_flatten_aliasLines,
      joinLines_cons, joinLines_nil]
    simp only [List.append_assoc, List.nil_append]
    rfl
  · intro l hl
    simp only [List.mem_append, List.mem_map, List.mem_flatten, List.mem_reverse] at hl
    rcases hl with (((hl | ⟨c, hc, rfl⟩) | ⟨ls, ⟨m, hm, rfl⟩, hl⟩) | ⟨c, hc, rfl⟩) | hl
    · simp only [preambleLines, List.mem_cons, List.mem_singleton, List.not_mem_nil,
        or_false] at hl
      rcases hl with rfl | rfl | rfl | rfl | rfl | rfl | rfl | rfl | rfl | rfl | rfl | rfl
      all_goals simp [hname, hid, hdet]
    · simp [hns c hc]
    · have := hmsg m hm
      simp only [aliasLines, List.mem_cons, List.mem_singleton, List.not_mem_nil,
        or_false] at hl
      rcases hl with rfl | rfl | rfl | rfl
      all_goals simp [this]
    · simp [hns c hc]
    · simp only [List.mem_cons, List.mem_singleton, List.not_mem_nil, or_false] at hl
      rcases hl with rfl | rfl
      all_goals simp [hid]

end NewHeader

theorem filterMap_none {α β : Type} (f : α → Option β) (l : List α)
    (h : ∀ a ∈ l, f a = none) : l.filterMap f = [] := by
  induction l with
  | nil => rfl
  | cons a l ih =>
    rw [List.filterMap_cons, h a (by simp)]
    exact ih (fun b hb => h b (by simp [hb]))

theorem filterMap_map_some {α β : Type} (f : β → Option α) (g : α → β) (l : List α)
    (h : ∀ a, f (g a) = some a) : (l.map g).filterMap f = l := by
  induction l with
  | nil => rfl
  | cons a l ih => rw [List.map_cons, List.filterMap_cons, h a, ih]

theorem filter_false {α : Type} (p : α → Bool) (l : List α)
    (h : ∀ a ∈ l, p a = false) : l.filter p = [] := by
  induction l with
  | nil => rfl
  | cons a l ih =>
    rw [List.filter_cons, h a (by simp)]
    exact ih (fun b hb => h b (by simp [hb]))

theorem filter_true {α : Type} (p : α → Bool) (l : List α)
    (h : ∀ a ∈ l, p a = true) : l.filter p = l := by
  induction l with
  | nil => rfl
  | cons a l ih =>
    rw [List.filter_cons, h a (by simp)]
    simp only [if_true]
    rw [ih (fun b hb => h b (by simp [hb]))]

set_option maxRecDepth 100000 in
theorem preambleLines_head (f g d : Str) (c : Char)
    (hc : c ≠ '/' ∧ c ≠ '#') :
    ∀ l ∈ preambleLines f g d, l.head? ≠ some c := by
  intro l hl
  simp only [preambleLines, List.mem_cons, List.mem_singleton, List.not_mem_nil,
    or_false] at hl
  rcases hl with rfl | rfl | rfl | rfl | rfl | rfl | rfl | rfl | rfl | rfl | rfl | rfl
  all_goals first
    | (intro h
       have h2 : some '/' = some c := h
       exact hc.1 (Option.some.inj h2).symm)
    | (intro h
       have h2 : some '#' = some c := h
       exact hc.2 (Option.some.inj h2).symm)
    | simp

set_option maxRecDepth 100000 in
theorem aliasLines_head (m : Str) : ∀ l ∈ aliasLines m,
    l.head? = some 't' ∧ isTypedefLine l = true := by
  intro l hl
  simp only [aliasLines, List.mem_cons, List.mem_singleton, List.not_mem_nil, or_false] at hl
  rcases hl with rfl | rfl | rfl | rfl
  all_goals exact ⟨rfl, rfl⟩

theorem flatten_aliasLines_head (ms : List Str) : ∀ l ∈ (ms.map aliasLines).flatten,
    l.head? = some 't' ∧ isTypedefLine l = true := by
  intro l hl
  simp only [List.mem_flatten, List.mem_map] at hl
  obtain ⟨ls, ⟨m, _, rfl⟩, hl⟩ := hl
  exact aliasLines_head m l hl

theorem length_flatten_aliasLines (ms : List Str) :
    ((ms.map aliasLines).flatten).length = 4 * ms.length := by
  induction ms with
  | nil => rfl
  | cons m ms ih =>
    simp only [List.map_cons, List.flatten_cons, List.length_append, ih, List.length_cons]
    simp only [aliasLines, List.length_cons, List.length_nil]
    omega

theorem open_line_head (c : Str) :
    ("namespace ".toList ++ c ++ " \x7b".toList).head? = some 'n' := rfl

theorem close_line_head (c : Str) :
    ("\x7d  // namespace ".toList ++ c).head? = some '\x7d' := rfl

theorem endif_line_head (g : Str) : ("#endif  // ".toList ++ g).head? = some '#' := rfl

/-- C3. For every descriptor whose names hold no newline (and whose message names hold
no NUL) and every output directory handing out the two streams, the lines of
the header that are typedef declarations are exactly, for each message `m`
in declaration order, the four lines declaring `mUniquePtr`,
`ConstmUniquePtr`, `mSharedPtr` and `ConstmSharedPtr`, in this order; so
there are four times as many as messages. -/
theorem C3_typedef_declarations (file : FileDescriptor) (ctx : OutputDirectory)
    (hidx : ctx.Open (NewHeader.deriveNames file.name).indexFilename = true)
    (hhdr : ctx.Open (NewHeader.deriveNames file.name).headerFilename = true)
    (hnul : ∀ m ∈ file.message_type, Char.ofNat 0 ∉ m)
    (hname : '\n' ∉ file.name) (hpkg : '\n' ∉ file.package)
    (hmsg : ∀ m ∈ file.message_type, '\n' ∉ m) :
    ∃ (index : Str × Str) (text : Str),
      NewHeader.Generate file ctx
        = ⟨some true, [index, ((NewHeader.deriveNames file.name).headerFilename, text)]⟩ ∧
      (splitLines '\n' text).filter isTypedefLine
        = (file.message_type.map (fun m =>
            ["typedef std::unique_ptr<".toList ++ m ++ "> ".toList ++ m ++ "UniquePtr;".toList,
             "typedef std::unique_ptr<const ".toList ++ m ++ "> Const".toList ++ m
               ++ "UniquePtr;".toList,
             "typedef std::shared_ptr<".toList ++ m ++ "> ".toList ++ m ++ "SharedPtr;".toList,
             "typedef std::shared_ptr<const ".toList ++ m ++ "> Const".toList ++ m
               ++ "SharedPtr;".toList])).flatten ∧
      ((splitLines '\n' text).filter isTypedefLine).length = 4 * file.message_type.length := by
  obtain ⟨index, text, hgen, hlines⟩ :=
    NewHeader.header_lines file ctx hidx hhdr hnul hname hpkg hmsg
  have hfilter : (splitLines '\n' text).filter isTypedefLine
      = (file.message_type.map aliasLines).flatten := by
    rw [hlines]
    simp only [List.filter_append]
    rw [filter_false _ (preambleLines _ _ _) (fun l hl => isTypedefLine_false l
        (preambleLines_head _ _ _ 't' (by decide) l hl)),
      filter_false _ (List.map _ (getNamespaces file.package)) (fun l hl => by
        obtain ⟨c, _, rfl⟩ := List.mem_map.mp hl
        exact isTypedefLine_false _ (by rw [open_line_head]; decide)),
      filter_true _ _ (fun l hl => (flatten_aliasLines_head _ l hl).2),
      filter_false _ (List.map _ (getNamespaces file.package).reverse) (fun l hl => by
        obtain ⟨c, _, rfl⟩ := List.mem_map.mp hl
        exact isTypedefLine_false _ (by rw [close_line_head]; decide)),
      filter_false _ [[], _] (fun l hl => by
        simp only [List.mem_cons, List.mem_singleton, List.not_mem_nil, or_false] at hl
        rcases hl with rfl | rfl
        · rfl
        · exact isTypedefLine_false _ (by rw [endif_line_head]; decide))]
    simp
  refine ⟨index, text, hgen, hfilter, ?_⟩
  rw [hfilter, length_flatten_aliasLines]

/-- C3, at the scenario descriptor with two messages. -/
theorem C3_typedef_declarations_witness :
    ∃ (index : Str × Str) (text : Str),
      NewHeader.Generate ⟨"gz/msgs/foo.proto".toList, "gz.msgs".toList,
          ["Foo".toList, "Bar".toList]⟩ ⟨fun _ => true, fun _ _ => true⟩
        = ⟨some true, [index, ("gz/msgs/foo.gz.h".toList, text)]⟩ ∧
      ((splitLines '\n' text).filter isTypedefLine).length = 8 := by
  obtain ⟨index, text, h1, _, h3⟩ := C3_typedef_declarations
    ⟨"gz/msgs/foo.proto".toList, "gz.msgs".toList, ["Foo".toList, "Bar".toList]⟩
    ⟨fun _ => true, fun _ _ => true⟩ rfl rfl (by decide) (by decide) (by decide) (by decide)
  rw [NewHeader.deriveNames_foo] at h1
  exact ⟨index, text, h1, h3⟩

/-- C5. For every descriptor whose names hold no newline (and whose message names hold
no NUL) and every output directory handing out the two streams, the names
on the namespace-opening lines of the header, top to bottom, are
`getNamespaces` of the package in order, and the names on the
namespace-closing lines are that list reversed. -/
theorem C5_namespace_mirror (file : FileDescriptor) (ctx : OutputDirectory)
    (hidx : ctx.Open (NewHeader.deriveNames file.name).indexFilename = true)
    (hhdr : ctx.Open (NewHeader.deriveNames file.name).headerFilename = true)
    (hnul : ∀ m ∈ file.message_type, Char.ofNat 0 ∉ m)
    (hname : '\n' ∉ file.name) (hpkg : '\n' ∉ file.package)
    (hmsg : ∀ m ∈ file.message_type, '\n' ∉ m) :
    ∃ (index : Str × Str) (text : Str),
      NewHeader.Generate file ctx
        = ⟨some true, [index, ((NewHeader.deriveNames file.name).headerFilename, text)]⟩ ∧
      (splitLines '\n' text).filterMap nsOpenName = getNamespaces file.package ∧
      (splitLines '\n' text).filterMap nsCloseName = (getNamespaces file.package).reverse := by
  obtain ⟨index, text, hgen, hlines⟩ :=
    NewHeader.header_lines file ctx hidx hhdr hnul hname hpkg hmsg
  refine ⟨index, text, hgen, ?_, ?_⟩
  · rw [hlines]
    simp only [List.filterMap_append]
    rw [filterMap_none _ (preambleLines _ _ _) (fun l hl => nsOpenName_none l
        (preambleLines_head _ _ _ 'n' (by decide) l hl)),
      filterMap_map_some nsOpenName _ _ nsOpenName_open,
      filterMap_none _ (List.flatten _) (fun l hl => nsOpenName_none l
        (by rw [(flatten_aliasLines_head _ l hl).1]; decide)),
      filterMap_none _ (List.map _ (getNamespaces file.package).reverse) (fun l hl => by
        obtain ⟨c, _, rfl⟩ := List.mem_map.mp hl
        exact nsOpenName_none _ (by rw [close_line_head]; decide)),
      filterMap_none _ [[], _] (fun l hl => by
        simp only [List.mem_cons, List.mem_singleton, List.not_mem_nil, or_false] at hl
        rcases hl with rfl | rfl
        · rfl
        · exact nsOpenName_none _ (by rw [endif_line_head]; decide))]
    simp
  · rw [hlines]
    simp only [List.filterMap_append]
    rw [filterMap_none _ (preambleLines _ _ _) (fun l hl => nsCloseName_none l
        (preambleLines_head _ _ _ '\x7d' (by decide) l hl)),
      filterMap_none _ (List.map _ (getNamespaces file.package)) (fun l hl => by
        obtain ⟨c, _, rfl⟩ := List.mem_map.mp hl
        exact nsCloseName_none _ (by rw [open_line_head]; decide)),
      filterMap_none _ (List.flatten _) (fun l hl => nsCloseName_none l
        (by rw [(flatten_aliasLines_head _ l hl).1]; decide)),
      filterMap_map_some nsCloseName _ _ nsCloseName_close,
      filterMap_none _ [[], _] (fun l hl => by
        simp only [List.mem_cons, List.mem_singleton, List.not_mem_nil, or_false] at hl
        rcases hl with rfl | rfl
        · rfl
        · exact nsCloseName_none _ (by rw [endif_line_head]; decide))]
    simp

/-- C5, at the scenario descriptor. -/
theorem C5_namespace_mirror_witness :
    ∃ (index : Str × Str) (text : Str),
      NewHeader.Generate ⟨"gz/msgs/foo.proto".toList, "gz.msgs".toList, ["Foo".toList]⟩
          ⟨fun _ => true, fun _ _ => true⟩
        = ⟨some true, [index, ("gz/msgs/foo.gz.h".toList, text)]⟩ ∧
      (splitLines '\n' text).filterMap nsOpenName = ["gz".toList, "msgs".toList] ∧
      (splitLines '\n' text).filterMap nsCloseName = ["msgs".toList, "gz".toList] := by
  obtain ⟨index, text, h1, h2, h3⟩ := C5_namespace_mirror
    ⟨"gz/msgs/foo.proto".toList, "gz.msgs".toList, ["Foo".toList]⟩
    ⟨fun _ => true, fun _ _ => true⟩ rfl rfl (by decide) (by decide) (by decide) (by decide)
  rw [NewHeader.deriveNames_foo] at h1
  have hns : getNamespaces "gz.msgs".toList = ["gz".toList, "msgs".toList] := by
    rw [getNamespaces_eq]; decide
  rw [hns] at h2 h3
  exact ⟨index, text, h1, h2, h3⟩

/-! ## Counting "::" after replaceAll -/

theorem countDisjointFrom_replaceChar (s : Str) (hs : ':' ∉ s) :
    countDisjointFrom [':', ':'] (replaceChar '.' [':', ':'] s) 0 = s.count '.' := by
  induction s with
  | nil => rfl
  | cons x xs ih =>
    have hx : x ≠ ':' := fun h => hs (by simp [h])
    have hxs : ':' ∉ xs := fun h => hs (by simp [h])
    by_cases hd : x = '.'
    · subst hd
      simp only [replaceChar, if_true, List.count_cons_self]
      show countDisjointFrom [':', ':'] (':' :: ':' :: replaceChar '.' [':', ':'] xs) 0 = _
      simp only [countDisjointFrom, List.isPrefixOf, beq_self_eq_true, Bool.and_self, Bool.true_and,
        if_true, List.length_cons, List.length_nil]
      rw [ih hxs]
      omega
    · simp only [replaceChar, hd, if_false]
      rw [List.count_cons_of_ne (Ne.symm hd)]
      have hp : List.isPrefixOf [':', ':'] (x :: replaceChar '.' [':', ':'] xs) = false := by
        simp [List.isPrefixOf, Ne.symm hx]
      simp only [countDisjointFrom, hp, Bool.false_eq_true, if_false]
      exact ih hxs

theorem countOccurrences_dot (s : Str) : countOccurrences ['.'] s = s.count '.' := by
  induction s with
  | nil => rfl
  | cons x xs ih =>
    by_cases hd : x = '.'
    · subst hd
      simp [countOccurrences, List.isPrefixOf, ih]
      omega
    · rw [List.count_cons_of_ne (Ne.symm hd)]
      simp [countOccurrences, List.isPrefixOf, ih, Ne.symm hd]

/-- C11, as stated, fails: the string "::" holds no "." and `replaceAll` leaves it as
it is, so the result holds one occurrence of "::" (counted with or without
overlap) against zero occurrences of "." in the original. -/
theorem C11_count_counterexample :
    replaceAll 1 "::".toList ".".toList "::".toList = some "::".toList ∧
    countOccurrences ".".toList "::".toList = 0 ∧
    countDisjoint "::".toList "::".toList = 1 ∧
    countOccurrences "::".toList "::".toList = 1 := by
  decide

/-- C11, amended. For every string `s` without ':' whose result fits a `size_t`
length, `replaceAll(s, ".", "::")` ends and the number of non-overlapping
occurrences of "::" in its result equals the number of occurrences of "." in
`s`. -/
theorem C11_count_of_replaced (s : Str) (hcolon : ':' ∉ s)
    (hlen : s.length + s.count '.' < 2 ^ 64) :
    ∃ r : Str,
      (∀ fuel, s.count '.' < fuel → replaceAll fuel s ".".toList "::".toList = some r) ∧
      countDisjoint "::".toList r = countOccurrences ".".toList s := by
  refine ⟨replaceChar '.' [':', ':'] s, ?_, ?_⟩
  · intro fuel hfuel
    have h := replaceAllLoop_dot s fuel [] [] (by simp) hfuel (by simpa using hlen)
    simpa [replaceAll] using h
  · show countDisjointFrom [':', ':'] _ 0 = countOccurrences ['.'] s
    rw [countDisjointFrom_replaceChar s hcolon, countOccurrences_dot]

/-- C11 amended, at "gz.msgs.v1". -/
theorem C11_count_of_replaced_witness :
    ∃ r : Str, replaceAll 3 "gz.msgs.v1".toList ".".toList "::".toList = some r ∧
      countDisjoint "::".toList r = 2 :=
  (C11_count_of_replaced "gz.msgs.v1".toList (by decide) (by decide)).elim
    (fun r h => ⟨r, h.1 3 (by decide), h.2.trans (by decide)⟩)

/-! ## The scan position of replaceAll, and its termination -/

/-- C12, the code at a failing input: for the source "abcabc", the delimiter "abc"
and the replacement "x", the search after the replacement at index 0 resumes
at `0 + 1 - 3 + 1` modulo `2 ^ 64`, which is `npos`, not at index 1 behind the
inserted text; `replaceAll` then stops and leaves "xabc", while the standard
left-to-right replacement gives "xx". -/
theorem C12_scan_position_failing_input :
    find "abcabc".toList "abc".toList 0 = 0 ∧
    sizeAdd 0 (sizeAdd (sizeSub "x".toList.length "abc".toList.length) 1) = npos ∧
    0 + "x".toList.length = 1 ∧
    (∀ fuel, 2 ≤ fuel →
      replaceAll fuel "abcabc".toList "abc".toList "x".toList = some "xabc".toList) ∧
    replaceStandard "abcabc".toList "abc".toList "x".toList = "xx".toList := by
  refine ⟨by decide, by decide, by decide, ?_, by decide⟩
  intro fuel hfuel
  obtain ⟨f, rfl⟩ : ∃ f, fuel = f + 2 := ⟨fuel - 2, by omega⟩
  rfl

theorem findFrom_spec (pat : Str) : ∀ (s : Str) (k j : Nat),
    findFrom pat s k = j → j ≠ npos → k ≤ j ∧ (j - k) + pat.length ≤ s.length := by
  intro s
  induction s with
  | nil =>
    intro k j h hj
    unfold findFrom at h
    split at h
    · rename_i hp
      subst h
      simp [hp]
    · exact absurd h.symm hj
  | cons c cs ih =>
    intro k j h hj
    unfold findFrom at h
    split at h
    · rename_i hp
      subst h
      have hle := (List.isPrefixOf_iff_prefix.mp hp).length_le
      simp only [Nat.sub_self, Nat.zero_add]
      exact ⟨le_refl _, hle⟩
    · obtain ⟨h1, h2⟩ := ih (k + 1) j h hj
      simp only [List.length_cons]
      omega

theorem find_spec (src pat : Str) (i j : Nat) (h : find src pat i = j) (hj : j ≠ npos) :
    i ≤ j ∧ j + pat.length ≤ src.length := by
  unfold find at h
  split at h
  · rename_i hle
    obtain ⟨h1, h2⟩ := findFrom_spec pat _ i j h hj
    rw [List.length_drop] at h2
    omega
  · exact absurd h.symm hj

theorem find_gt_length (src pat : Str) (i : Nat) (h : src.length < i) :
    find src pat i = npos := by
  unfold find
  rw [if_neg (by omega)]

theorem replace_length (src new : Str) (j a : Nat) (h : j + a ≤ src.length) :
    (replace src j a new).length + a = src.length + new.length := by
  unfold replace
  simp only [List.length_append, List.length_take, List.length_drop]
  omega

theorem replaceAllLoop_mono (old new : Str) : ∀ (fuel : Nat) (src : Str) (i : Nat) (r : Str),
    replaceAllLoop fuel src old new i = some r →
    replaceAllLoop (fuel + 1) src old new i = some r := by
  intro fuel
  induction fuel with
  | zero => intro src i r h; simp [replaceAllLoop] at h
  | succ f ih =>
    intro src i r h
    rw [replaceAllLoop] at h ⊢
    split
    · rename_i hj
      rw [if_pos hj] at h
      exact h
    · rename_i hj
      rw [if_neg hj] at h
      exact ih _ _ _ h

theorem replaceAllLoop_mono_le (old new : Str) (f g : Nat) (hfg : f ≤ g) (src : Str) (i : Nat)
    (r : Str) (h : replaceAllLoop f src old new i = some r) :
    replaceAllLoop g src old new i = some r := by
  induction g with
  | zero =>
    have : f = 0 := by omega
    subst this
    exact h
  | succ g ih =>
    by_cases hf : f = g + 1
    · subst hf; exact h
    · exact replaceAllLoop_mono old new g src i r (ih (by omega))

/-- A replacement shorter than the delimiter: every replacement shortens the
string, whatever the index does. -/
theorem replaceAllLoop_ends_shrinking (old new : Str) (hlt : new.length < old.length) :
    ∀ (n : Nat) (src : Str) (i : Nat), src.length ≤ n →
      ∃ r, replaceAllLoop (n + 1) src old new i = some r := by
  intro n
  induction n with
  | zero =>
    intro src i hn
    rw [replaceAllLoop]
    split
    · exact ⟨_, rfl⟩
    · rename_i hj
      have := (find_spec src old i _ rfl hj).2
      omega
  | succ n ih =>
    intro src i hn
    rw [replaceAllLoop]
    split
    · exact ⟨_, rfl⟩
    · rename_i hj
      have h2 := (find_spec src old i _ rfl hj).2
      have h3 := replace_length src new _ _ h2
      exact ih _ _ (by omega)

/-- A replacement at least as long as the delimiter: the distance from the index
to the end of the string shrinks with every replacement, as long as the
sizes stay below `2 ^ 64`. -/
theorem replaceAllLoop_ends_growing (old new : Str) (hle : old.length ≤ new.length) :
    ∀ (n : Nat) (src : Str) (i : Nat), src.length + 1 - i ≤ n →
      src.length + n * (new.length - old.length) + 1 < 2 ^ 64 →
      ∃ r, replaceAllLoop (n + 1) src old new i = some r := by
  intro n
  induction n with
  | zero =>
    intro src i hn _
    rw [replaceAllLoop]
    rw [find_gt_length src old i (by omega)]
    exact ⟨src, by simp⟩
  | succ n ih =>
    intro src i hn hb
    rw [replaceAllLoop]
    split
    · exact ⟨_, rfl⟩
    · rename_i hj
      obtain ⟨h1, h2⟩ := find_spec src old i _ rfl hj
      have h3 := replace_length src new _ _ h2
      generalize find src old i = j at *
      rw [Nat.succ_mul] at hb
      generalize n * (new.length - old.length) = q at *
      have hi : sizeAdd j (sizeAdd (sizeSub new.length old.length) 1)
          = j + (new.length - old.length) + 1 := by
        unfold sizeAdd sizeSub
        omega
      rw [hi]
      exact ih _ _ (by omega) (by omega)

/-- C20. For every source, delimiter and replacement (the delimiter empty or not, the
replacement shorter, longer or containing the delimiter), provided that,
when the replacement is not shorter than the delimiter, the sizes that can
arise stay below `2 ^ 64`: the loop of `replaceAll` ends, after at most
`length(src) + 2` tests of its condition, whatever larger bound it is
given. -/
theorem C20_replaceAll_terminates (src old new : Str)
    (hsize : old.length ≤ new.length →
      src.length + (src.length + 1) * (new.length - old.length) + 1 < 2 ^ 64) :
    ∃ r : Str, ∀ fuel, src.length + 2 ≤ fuel → replaceAll fuel src old new = some r := by
  by_cases hle : old.length ≤ new.length
  · obtain ⟨r, hr⟩ := replaceAllLoop_ends_growing old new hle (src.length + 1) src 0
      (by omega) (hsize hle)
    exact ⟨r, fun fuel hf => replaceAllLoop_mono_le old new _ fuel hf src 0 r hr⟩
  · obtain ⟨r, hr⟩ := replaceAllLoop_ends_shrinking old new (by omega) src.length src 0
      (le_refl _)
    exact ⟨r, fun fuel hf => replaceAllLoop_mono_le old new _ fuel (by omega) src 0 r hr⟩

/-- C20, at a shorter replacement whose index update wraps, a longer replacement
that contains the delimiter, and the empty delimiter. -/
theorem C20_replaceAll_terminates_witness :
    (∃ r : Str, replaceAll 8 "abcabc".toList "abc".toList "x".toList = some r) ∧
    (∃ r : Str, replaceAll 6 "abab".toList "ab".toList "abab".toList = some r) ∧
    (∃ r : Str, replaceAll 5 "a.b".toList [] "xy".toList = some r) :=
  ⟨(C20_replaceAll_terminates "abcabc".toList "abc".toList "x".toList (by decide)).elim
      (fun r h => ⟨r, h 8 (by decide)⟩),
   (C20_replaceAll_terminates "abab".toList "ab".toList "abab".toList (by decide)).elim
      (fun r h => ⟨r, h 6 (by decide)⟩),
   (C20_replaceAll_terminates "a.b".toList [] "xy".toList (by decide)).elim
      (fun r h => ⟨r, h 5 (by decide)⟩)⟩

/-! ## The file names of the splice generator -/

theorem rfindFrom_short (pat : Str) : ∀ (s : Str) (k : Nat), s.length < pat.length →
    rfindFrom pat s k = none := by
  intro s
  induction s with
  | nil =>
    intro k h
    have hp : pat ≠ [] := by
      intro hp
      rw [hp] at h
      exact Nat.lt_irrefl _ h
    simp [rfindFrom, hp]
  | cons c cs ih =>
    intro k h
    have hcs : cs.length < pat.length := by
      simp only [List.length_cons] at h
      omega
    have hpre : List.isPrefixOf pat (c :: cs) = false := by
      cases hq : List.isPrefixOf pat (c :: cs) with
      | false => rfl
      | true =>
        have := (List.isPrefixOf_iff_prefix.mp hq).length_le
        omega
    rw [rfindFrom, ih (k + 1) hcs, hpre]
    simp

theorem rfindFrom_self (pat : Str) (k : Nat) : rfindFrom pat pat k = some k := by
  cases pat with
  | nil => rfl
  | cons c cs =>
    have hpre : List.isPrefixOf (c :: cs) (c :: cs) = true :=
      List.isPrefixOf_iff_prefix.mpr (List.prefix_refl _)
    rw [rfindFrom, rfindFrom_short (c :: cs) cs (k + 1) (by simp), hpre]
    simp

theorem rfindFrom_append (pat : Str) : ∀ (base : Str) (k : Nat),
    rfindFrom pat (base ++ pat) k = some (k + base.length) := by
  intro base
  induction base with
  | nil => intro k; simpa using rfindFrom_self pat k
  | cons x xs ih =>
    intro k
    rw [List.cons_append, rfindFrom, ih (k + 1)]
    simp only [List.length_cons]
    congr 1
    omega

theorem rfind_append (base pat : Str) : rfind (base ++ pat) pat = base.length := by
  unfold rfind
  rw [rfindFrom_append]
  simp

theorem rfindFrom_none (pat : Str) (hp : pat ≠ []) : ∀ (s : Str) (k : Nat),
    countOccurrences pat s = 0 → rfindFrom pat s k = none := by
  intro s
  induction s with
  | nil => intro k _; simp [rfindFrom, hp]
  | cons c cs ih =>
    intro k h
    unfold countOccurrences at h
    have h1 : countOccurrences pat cs = 0 := by omega
    have h2 : List.isPrefixOf pat (c :: cs) = false := by
      cases hq : List.isPrefixOf pat (c :: cs) with
      | false => rfl
      | true => rw [hq] at h; simp at h
    rw [rfindFrom, ih (k + 1) h1, h2]
    simp

namespace Splice

/-- The two file names of `base.proto`. -/
theorem deriveNames_append_proto (base : Str) :
    deriveNames (base ++ ".proto".toList)
      = some (base ++ ".pb.h".toList, base ++ ".pb.cc".toList) := by
  have hrep : ∀ ext : Str,
      replaceOrThrow (base ++ ".proto".toList) base.length ".proto".toList.length ext
        = some (base ++ ext) := by
    intro ext
    unfold replaceOrThrow replace
    rw [if_pos (by simp)]
    have h1 : (base ++ ".proto".toList).take base.length = base := List.take_left _ _
    have h2 : (base ++ ".proto".toList).drop (base.length + ".proto".toList.length) = [] := by
      apply List.drop_eq_nil_of_le
      simp
    rw [h1, h2, List.append_nil]
  unfold deriveNames
  simp only [rfind_append, hrep]

/-- Without the marker ".proto" in the file name, `replace` throws. -/
theorem deriveNames_none (name : Str) (hno : countOccurrences ".proto".toList name = 0)
    (hlen : name.length < npos) : deriveNames name = none := by
  have hr : rfind name ".proto".toList = npos := by
    unfold rfind
    rw [rfindFrom_none ".proto".toList (by decide) name 0 hno]
    rfl
  unfold deriveNames
  simp only [hr, replaceOrThrow]
  rw [if_neg (by omega)]

end Splice

/-! ## Printing in the splice generator -/

theorem substitute_no_dollar (vars : List (Str × Str)) (t : Str) (h : '$' ∉ t) :
    substitute vars t none = t := by
  induction t with
  | nil => rfl
  | cons c cs ih =>
    have hc : c ≠ '$' := fun e => h (by simp [e])
    have hcs : '$' ∉ cs := fun e => h (by simp [e])
    simp only [substitute, hc, if_false, ih hcs]

theorem c_str_of_no_nul (t : Str) (h : Char.ofNat 0 ∉ t) : c_str t = t := by
  unfold c_str
  rw [List.takeWhile_eq_self_iff]
  intro x hx
  have : x ≠ Char.ofNat 0 := fun e => h (e ▸ hx)
  simpa using this

namespace Splice

theorem OpenForInsert_running (ins : List Insertion) (ctx : OutputDirectory) (f p : Str) :
    Run.OpenForInsert ⟨none, ins⟩ ctx f p = ⟨none, ⟨f, p, ctx.OpenForInsert f p, []⟩ :: ins⟩ := by
  simp [Run.OpenForInsert]

theorem Print_running (f p txt : Str) (rest : List Insertion) (t v x : Str) (h : '$' ∉ t) :
    Run.Print ⟨none, ⟨f, p, true, txt⟩ :: rest⟩ t v x = ⟨none, ⟨f, p, true, txt ++ t⟩ :: rest⟩ := by
  unfold Run.Print
  rw [substitute_no_dollar _ t h]
  by_cases ht : t = []
  · simp [ht]
  · simp [ht]

theorem Above_Print (base : List Insertion) (h : Str) (r : Run) (t v x : Str)
    (hr : Above base h r) : Above base h (r.Print t v x) := by
  obtain ⟨top, h1, h2, h3⟩ := hr
  cases top with
  | nil => exact absurd rfl h2
  | cons i0 top =>
    unfold Run.Print
    split
    · exact ⟨i0 :: top, h1, h2, h3⟩
    · rw [h1]
      simp only [List.cons_append]
      split
      · exact ⟨i0 :: top, h1, h2, h3⟩
      · split
        · refine ⟨⟨i0.filename, i0.insertion_point, true, _⟩ :: top, rfl, by simp, ?_⟩
          intro i hi
          rcases List.mem_cons.mp hi with hi | hi
          · rw [hi]
            exact h3 i0 (by simp)
          · exact h3 i (by simp [hi])
        · exact ⟨i0 :: top, rfl, h2, h3⟩

theorem Above_OpenForInsert (base : List Insertion) (h : Str) (r : Run) (ctx : OutputDirectory)
    (p : Str) (hr : Above base h r) : Above base h (r.OpenForInsert ctx h p) := by
  obtain ⟨top, h1, h2, h3⟩ := hr
  unfold Run.OpenForInsert
  split
  · exact ⟨top, h1, h2, h3⟩
  · refine ⟨⟨h, p, ctx.OpenForInsert h p, []⟩ :: top, by rw [h1]; rfl, by simp, ?_⟩
    intro i hi
    rcases List.mem_cons.mp hi with hi | hi
    · rw [hi]
    · exact h3 i hi

theorem Above_first (base : List Insertion) (h : Str) (ctx : OutputDirectory) (p : Str) :
    Above base h (Run.OpenForInsert ⟨none, base⟩ ctx h p) := by
  rw [OpenForInsert_running]
  exact ⟨[⟨h, p, ctx.OpenForInsert h p, []⟩], rfl, by simp, by simp⟩

theorem Above_stop (base : List Insertion) (h : Str) (r : Run) (s : Status)
    (hr : Above base h r) :
    ∃ later, (r.stop s).insertions = base.reverse ++ later ∧ ∀ i ∈ later, i.filename = h := by
  obtain ⟨top, h1, _, h3⟩ := hr
  refine ⟨top.reverse, by simp [Run.stop, h1], ?_⟩
  intro i hi
  exact h3 i (List.mem_reverse.mp hi)

end Splice

/-! ## The insertions of the splice generator -/

namespace Splice

/-- The state after the second block (lines 64-89), for a first message `M`
without '$' and NUL and the first two streams handed out. -/
theorem second_block (h s M : Str) (ctx : OutputDirectory)
    (hh : ctx.OpenForInsert h "includes".toList = true)
    (hs : ctx.OpenForInsert s "includes".toList = true)
    (hd : '$' ∉ M) (hn : Char.ofNat 0 ∉ M) :
    Run.Print
      (Run.Print
        (Run.Print
          (Run.OpenForInsert
            (Run.Print (Run.OpenForInsert ⟨none, []⟩ ctx h "includes".toList)
              "#pragma GCC system_header".toList "name".toList "includes".toList)
            ctx s "includes".toList)
          "#include \"ignition/messages/Factory.hh\"\n".toList "name".toList "includes".toList)
        "#pragma GCC diagnostic ignored \"-Wshadow\"\n".toList "name".toList "includes".toList)
      (c_str ("IGN_REGISTER_STATIC_MSG(\"ign_msgs.".toList
        ++ (M ++ "\", ".toList ++ M ++ ")".toList)))
      "name".toList "includes".toList
    = ⟨none,
       [⟨s, "includes".toList, true,
          "#include \"ignition/messages/Factory.hh\"\n".toList
          ++ "#pragma GCC diagnostic ignored \"-Wshadow\"\n".toList
          ++ ("IGN_REGISTER_STATIC_MSG(\"ign_msgs.".toList ++ M ++ "\", ".toList ++ M
              ++ ")".toList)⟩,
        ⟨h, "includes".toList, true, "#pragma GCC system_header".toList⟩]⟩ := by
  have hfd : '$' ∉ "IGN_REGISTER_STATIC_MSG(\"ign_msgs.".toList
      ++ (M ++ "\", ".toList ++ M ++ ")".toList) := by
    intro hm
    simp only [List.mem_append] at hm
    rcases hm with hm | ((hm | hm) | hm) | hm
    · revert hm; decide
    · exact hd hm
    · revert hm; decide
    · exact hd hm
    · revert hm; decide
  have hfn : Char.ofNat 0 ∉ "IGN_REGISTER_STATIC_MSG(\"ign_msgs.".toList
      ++ (M ++ "\", ".toList ++ M ++ ")".toList) := by
    intro hm
    simp only [List.mem_append] at hm
    rcases hm with hm | ((hm | hm) | hm) | hm
    · revert hm; decide
    · exact hn hm
    · revert hm; decide
    · exact hn hm
    · revert hm; decide
  rw [c_str_of_no_nul _ hfn, OpenForInsert_running, hh,
    Print_running _ _ _ _ _ _ _ (by decide), OpenForInsert_running, hs,
    Print_running _ _ _ _ _ _ _ (by decide), Print_running _ _ _ _ _ _ _ (by decide),
    Print_running _ _ _ _ _ _ _ hfd]
  simp only [List.nil_append, List.append_assoc]

end Splice

/-- C13. For every descriptor named `base.proto` with a first message `M` (without
'$' and NUL), whatever its package and its other messages, and every output
directory handing out the two "includes" streams: the second request of
`Generate` is the "includes" point of `base.pb.cc`, the text inserted there is
the include of the factory header, the pragma and then exactly the one
statement `IGN_REGISTER_STATIC_MSG("ign_msgs.M", M)`; every other request is
for the other file, `base.pb.h`. -/
theorem C13_registration_statement (base package M : Str) (others : List Str)
    (ctx : OutputDirectory)
    (hh : ctx.OpenForInsert (base ++ ".pb.h".toList) "includes".toList = true)
    (hs : ctx.OpenForInsert (base ++ ".pb.cc".toList) "includes".toList = true)
    (hd : '$' ∉ M) (hn : Char.ofNat 0 ∉ M) :
    ∃ (first : Splice.Insertion) (later : List Splice.Insertion),
      (Splice.Generate ⟨base ++ ".proto".toList, package, M :: others⟩ ctx).insertions
        = [first,
           ⟨base ++ ".pb.cc".toList, "includes".toList, true,
            "#include \"ignition/messages/Factory.hh\"\n".toList
            ++ "#pragma GCC diagnostic ignored \"-Wshadow\"\n".toList
            ++ ("IGN_REGISTER_STATIC_MSG(\"ign_msgs.".toList ++ M ++ "\", ".toList ++ M
                ++ ")".toList)⟩] ++ later ∧
      first.filename = base ++ ".pb.h".toList ∧
      (∀ i ∈ later, i.filename = base ++ ".pb.h".toList) ∧
      base ++ ".pb.h".toList ≠ base ++ ".pb.cc".toList := by
  have hne : base ++ ".pb.h".toList ≠ base ++ ".pb.cc".toList := by
    intro e
    have := List.append_cancel_left e
    revert this
    decide
  have key : ∃ later,
      (Splice.Generate ⟨base ++ ".proto".toList, package, M :: others⟩ ctx).insertions
        = [⟨base ++ ".pb.cc".toList, "includes".toList, true,
            "#include \"ignition/messages/Factory.hh\"\n".toList
            ++ "#pragma GCC diagnostic ignored \"-Wshadow\"\n".toList
            ++ ("IGN_REGISTER_STATIC_MSG(\"ign_msgs.".toList ++ M ++ "\", ".toList ++ M
                ++ ")".toList)⟩,
           ⟨base ++ ".pb.h".toList, "includes".toList, true,
            "#pragma GCC system_header".toList⟩].reverse ++ later ∧
      ∀ i ∈ later, i.filename = base ++ ".pb.h".toList := by
    unfold Splice.Generate
    simp only [Splice.deriveNames_append_proto]
    rw [Splice.second_block _ _ M ctx hh hs hd hn]
    split
    · apply Splice.Above_stop
      repeat (first
        | exact Splice.Above_first _ _ _ _
        | apply Splice.Above_Print
        | apply Splice.Above_OpenForInsert)
    · split
      · apply Splice.Above_stop
        repeat (first
          | exact Splice.Above_first _ _ _ _
          | apply Splice.Above_Print
          | apply Splice.Above_OpenForInsert)
      · apply Splice.Above_stop
        repeat (first
          | exact Splice.Above_first _ _ _ _
          | apply Splice.Above_Print
          | apply Splice.Above_OpenForInsert)
  obtain ⟨later, h1, h2⟩ := key
  exact ⟨_, later, h1, rfl, h2, hne⟩

/-- C13, at the scenario: file "ign_msgs/bar.proto", package "ign_msgs", message
"Bar"; the statement goes to the "includes" point of "ign_msgs/bar.pb.cc". -/
theorem C13_registration_statement_witness :
    ∃ (first : Splice.Insertion) (later : List Splice.Insertion),
      (Splice.Generate ⟨"ign_msgs/bar".toList ++ ".proto".toList, "ign_msgs".toList,
          ["Bar".toList]⟩ ⟨fun _ => true, fun _ _ => true⟩).insertions
        = [first,
           ⟨"ign_msgs/bar.pb.cc".toList, "includes".toList, true,
            ("#include \"ignition/messages/Factory.hh\"\n"
              ++ "#pragma GCC diagnostic ignored \"-Wshadow\"\n"
              ++ "IGN_REGISTER_STATIC_MSG(\"ign_msgs.Bar\", Bar)").toList⟩] ++ later := by
  obtain ⟨first, later, h, _⟩ := C13_registration_statement "ign_msgs/bar".toList
    "ign_msgs".toList "Bar".toList [] ⟨fun _ => true, fun _ _ => true⟩ rfl rfl
    (by decide) (by decide)
  refine ⟨first, later, ?_⟩
  rw [h]
  have e : (⟨"ign_msgs/bar".toList ++ ".pb.cc".toList, "includes".toList, true,
      "#include \"ignition/messages/Factory.hh\"\n".toList
      ++ "#pragma GCC diagnostic ignored \"-Wshadow\"\n".toList
      ++ ("IGN_REGISTER_STATIC_MSG(\"ign_msgs.".toList ++ "Bar".toList ++ "\", ".toList
          ++ "Bar".toList ++ ")".toList)⟩ : Splice.Insertion)
      = ⟨"ign_msgs/bar.pb.cc".toList, "includes".toList, true,
          ("#include \"ignition/messages/Factory.hh\"\n"
            ++ "#pragma GCC diagnostic ignored \"-Wshadow\"\n"
            ++ "IGN_REGISTER_STATIC_MSG(\"ign_msgs.Bar\", Bar)").toList⟩ := by decide
  rw [e]

theorem mem_replaceChar (c : Char) (new s : Str) (x : Char) (h : x ∈ replaceChar c new s) :
    x ∈ s ∨ x ∈ new := by
  induction s with
  | nil => simp [replaceChar] at h
  | cons y ys ih =>
    unfold replaceChar at h
    split at h
    · rcases List.mem_append.mp h with h | h
      · exact Or.inr h
      · rcases ih h with h | h
        · exact Or.inl (List.mem_cons_of_mem _ h)
        · exact Or.inr h
    · rcases List.mem_cons.mp h with h | h
      · exact Or.inl (by simp [h])
      · rcases ih h with h | h
        · exact Or.inl (List.mem_cons_of_mem _ h)
        · exact Or.inr h

theorem replaceAll_package (package : Str) (hlen : package.length + package.count '.' < 2 ^ 64) :
    replaceAll (package.length + 1) package ".".toList "::".toList
      = some (replaceChar '.' [':', ':'] package) := by
  have h := replaceAllLoop_dot package (package.length + 1) [] [] (by simp)
    (by have := List.count_le_length '.' package; omega) (by simpa using hlen)
  simpa [replaceAll] using h

namespace Splice

/-- With every stream handed out, a first message and a package without '$' and
NUL, and a package whose result fits a `size_t` length, `Generate` returns
`true` having made its five insertions. -/
theorem Generate_insertions (base package M : Str) (others : List Str) (ctx : OutputDirectory)
    (hopen : ∀ f p, ctx.OpenForInsert f p = true)
    (hMd : '$' ∉ M) (hMn : Char.ofNat 0 ∉ M)
    (hPd : '$' ∉ package) (hPn : Char.ofNat 0 ∉ package)
    (hlen : package.length + package.count '.' < 2 ^ 64) :
    Generate ⟨base ++ ".proto".toList, package, M :: others⟩ ctx =
      ⟨Status.returned true,
       [⟨base ++ ".pb.h".toList, "includes".toList, true, "#pragma GCC system_header".toList⟩,
        ⟨base ++ ".pb.cc".toList, "includes".toList, true,
          "#include \"ignition/messages/Factory.hh\"\n".toList
          ++ "#pragma GCC diagnostic ignored \"-Wshadow\"\n".toList
          ++ ("IGN_REGISTER_STATIC_MSG(\"ign_msgs.".toList ++ M ++ "\", ".toList ++ M
              ++ ")".toList)⟩,
        ⟨base ++ ".pb.h".toList, "includes".toList, true, "#include <memory>\n".toList⟩,
        ⟨base ++ ".pb.h".toList, "namespace_scope".toList, true,
          "typedef std::shared_ptr<".toList ++ replaceChar '.' [':', ':'] package
            ++ "::".toList ++ M ++ "> ".toList ++ M ++ "Ptr;\n".toList⟩,
        ⟨base ++ ".pb.h".toList, "global_scope".toList, true,
          "typedef const std::shared_ptr<".toList ++ replaceChar '.' [':', ':'] package
            ++ "::".toList ++ M ++ " const> Const".toList ++ M ++ "Ptr;".toList⟩]⟩ := by
  have hQd : '$' ∉ replaceChar '.' [':', ':'] package := fun h =>
    (mem_replaceChar _ _ _ _ h).elim hPd (by decide)
  have hQn : Char.ofNat 0 ∉ replaceChar '.' [':', ':'] package := fun h =>
    (mem_replaceChar _ _ _ _ h).elim hPn (by decide)
  have hptr : ∀ x : Char, x ∉ M → x ∉ replaceChar '.' [':', ':'] package →
      x ∉ "typedef std::shared_ptr<".toList → x ∉ "::".toList → x ∉ "> ".toList →
      x ∉ "Ptr;\n".toList →
      x ∉ "typedef std::shared_ptr<".toList ++ replaceChar '.' [':', ':'] package
        ++ "::".toList ++ M ++ "> ".toList ++ M ++ "Ptr;\n".toList := by
    intro x h1 h2 h3 h4 h5 h6 hm
    simp only [List.mem_append] at hm
    rcases hm with (((((hm | hm) | hm) | hm) | hm) | hm) | hm
    · exact h3 hm
    · exact h2 hm
    · exact h4 hm
    · exact h1 hm
    · exact h5 hm
    · exact h1 hm
    · exact h6 hm
  have hconst : ∀ x : Char, x ∉ M → x ∉ replaceChar '.' [':', ':'] package →
      x ∉ "typedef const std::shared_ptr<".toList → x ∉ "::".toList →
      x ∉ " const> Const".toList → x ∉ "Ptr;".toList →
      x ∉ "typedef const std::shared_ptr<".toList ++ replaceChar '.' [':', ':'] package
        ++ "::".toList ++ M ++ " const> Const".toList ++ M ++ "Ptr;".toList := by
    intro x h1 h2 h3 h4 h5 h6 hm
    simp only [List.mem_append] at hm
    rcases hm with (((((hm | hm) | hm) | hm) | hm) | hm) | hm
    · exact h3 hm
    · exact h2 hm
    · exact h4 hm
    · exact h1 hm
    · exact h5 hm
    · exact h1 hm
    · exact h6 hm
  unfold Generate
  simp only [deriveNames_append_proto]
  rw [second_block _ _ M ctx (hopen _ _) (hopen _ _) hMd hMn]
  simp only [replaceAll_package package hlen]
  rw [c_str_of_no_nul _ (hptr _ hMn hQn (by decide) (by decide) (by decide) (by decide)),
    c_str_of_no_nul _ (hconst _ hMn hQn (by decide) (by decide) (by decide) (by decide)),
    OpenForInsert_running, hopen, Print_running _ _ _ _ _ _ _ (by decide),
    OpenForInsert_running, hopen,
    Print_running _ _ _ _ _ _ _
      (hptr _ hMd hQd (by decide) (by decide) (by decide) (by decide)),
    OpenForInsert_running, hopen,
    Print_running _ _ _ _ _ _ _
      (hconst _ hMd hQd (by decide) (by decide) (by decide) (by decide))]
  simp [Run.stop]

end Splice

theorem replaceChar_append (c : Char) (new a b : Str) :
    replaceChar c new (a ++ b) = replaceChar c new a ++ replaceChar c new b := by
  induction a with
  | nil => rfl
  | cons x xs ih =>
    by_cases hx : x = c
    · simp [replaceChar, hx, ih]
    · simp [replaceChar, hx, ih]

theorem replaceChar_of_not_mem (c : Char) (new a : Str) (h : c ∉ a) :
    replaceChar c new a = a := by
  induction a with
  | nil => rfl
  | cons x xs ih =>
    have hx : x ≠ c := fun e => h (by simp [e])
    have hxs : c ∉ xs := fun e => h (by simp [e])
    simp [replaceChar, hx, ih hxs]

theorem replaceChar_joinSep (cs : List Str) (h : ∀ c ∈ cs, '.' ∉ c) :
    replaceChar '.' [':', ':'] (joinSep ['.'] cs) = joinSep [':', ':'] cs := by
  induction cs with
  | nil => rfl
  | cons x rest ih =>
    have hx : '.' ∉ x := h x (by simp)
    have hrest : ∀ c ∈ rest, '.' ∉ c := fun c hc => h c (by simp [hc])
    cases rest with
    | nil => simpa [joinSep] using replaceChar_of_not_mem '.' [':', ':'] x hx
    | cons y ys =>
      have ih2 := ih hrest
      simp only [joinSep, replaceChar_append, replaceChar_of_not_mem '.' [':', ':'] x hx]
      rw [ih2]
      simp [replaceChar]

theorem mem_joinSep (sep : Str) (cs : List Str) (x : Char) (h : x ∈ joinSep sep cs) :
    x ∈ sep ∨ ∃ c ∈ cs, x ∈ c := by
  induction cs with
  | nil => simp [joinSep] at h
  | cons y rest ih =>
    cases rest with
    | nil => exact Or.inr ⟨y, by simp, by simpa [joinSep] using h⟩
    | cons z zs =>
      simp only [joinSep, List.mem_append] at h
      rcases h with (h | h) | h
      · exact Or.inr ⟨y, by simp, h⟩
      · exact Or.inl h
      · rcases ih h with h | ⟨c, hc, hx⟩
        · exact Or.inl h
        · exact Or.inr ⟨c, List.mem_cons_of_mem _ hc, hx⟩

/-- C14. For every package made of components `c1..ck` (without '.', '$' and NUL)
joined by ".", every first message `M` (without '$' and NUL), every file name
`base.proto` and every output directory handing out every stream (the
package fitting a `size_t` length twice over): `Generate` returns `true` and
the fourth request, the "namespace_scope" point of `base.pb.h`, receives
exactly `typedef std::shared_ptr<c1::c2::...::ck::M> MPtr;` and a newline. -/
theorem C14_namespace_scope_alias (base M : Str) (cs others : List Str) (ctx : OutputDirectory)
    (hopen : ∀ f p, ctx.OpenForInsert f p = true)
    (hcs : ∀ c ∈ cs, '.' ∉ c ∧ '$' ∉ c ∧ Char.ofNat 0 ∉ c)
    (hMd : '$' ∉ M) (hMn : Char.ofNat 0 ∉ M)
    (hlen : 2 * (joinSep ".".toList cs).length < 2 ^ 64) :
    ∃ i1 i2 i3 i5 : Splice.Insertion,
      Splice.Generate ⟨base ++ ".proto".toList, joinSep ".".toList cs, M :: others⟩ ctx =
        ⟨Splice.Status.returned true,
         [i1, i2, i3,
          ⟨base ++ ".pb.h".toList, "namespace_scope".toList, true,
            "typedef std::shared_ptr<".toList ++ joinSep "::".toList cs ++ "::".toList ++ M
              ++ "> ".toList ++ M ++ "Ptr;\n".toList⟩,
          i5]⟩ := by
  have hPd : '$' ∉ joinSep ".".toList cs := by
    intro h
    rcases mem_joinSep _ _ _ h with h | ⟨c, hc, hx⟩
    · revert h; decide
    · exact (hcs c hc).2.1 hx
  have hPn : Char.ofNat 0 ∉ joinSep ".".toList cs := by
    intro h
    rcases mem_joinSep _ _ _ h with h | ⟨c, hc, hx⟩
    · revert h; decide
    · exact (hcs c hc).2.2 hx
  have hlen2 : (joinSep ".".toList cs).length + (joinSep ".".toList cs).count '.' < 2 ^ 64 := by
    have := List.count_le_length '.' (joinSep ".".toList cs)
    omega
  have hrep : replaceChar '.' [':', ':'] (joinSep ".".toList cs) = joinSep "::".toList cs :=
    replaceChar_joinSep cs (fun c hc => (hcs c hc).1)
  have hg := Splice.Generate_insertions base (joinSep ".".toList cs) M others ctx hopen hMd hMn hPd hPn
    hlen2
  rw [hrep] at hg
  exact ⟨_, _, _, _, hg⟩

/-- C14, at the package "ignition.msgs", the message "Bar" and the file
"ign_msgs/bar.proto". -/
theorem C14_namespace_scope_alias_witness :
    ∃ i1 i2 i3 i5 : Splice.Insertion,
      Splice.Generate ⟨"ign_msgs/bar".toList ++ ".proto".toList,
          joinSep ".".toList ["ignition".toList, "msgs".toList], ["Bar".toList]⟩
          ⟨fun _ => true, fun _ _ => true⟩ =
        ⟨Splice.Status.returned true,
         [i1, i2, i3,
          ⟨"ign_msgs/bar.pb.h".toList, "namespace_scope".toList, true,
            "typedef std::shared_ptr<ignition::msgs::Bar> BarPtr;\n".toList⟩,
          i5]⟩ := by
  obtain ⟨i1, i2, i3, i5, h⟩ := C14_namespace_scope_alias "ign_msgs/bar".toList "Bar".toList
    ["ignition".toList, "msgs".toList] [] ⟨fun _ => true, fun _ _ => true⟩
    (fun _ _ => rfl) (by decide) (by decide) (by decide) (by decide)
  refine ⟨i1, i2, i3, i5, ?_⟩
  rw [h]
  have e : (⟨"ign_msgs/bar".toList ++ ".pb.h".toList, "namespace_scope".toList, true,
      "typedef std::shared_ptr<".toList ++ joinSep "::".toList ["ignition".toList, "msgs".toList]
        ++ "::".toList ++ "Bar".toList ++ "> ".toList ++ "Bar".toList ++ "Ptr;\n".toList⟩ :
        Splice.Insertion)
      = ⟨"ign_msgs/bar.pb.h".toList, "namespace_scope".toList, true,
          "typedef std::shared_ptr<ignition::msgs::Bar> BarPtr;\n".toList⟩ := by decide
  rw [e]

/-! ## The targets of the splice generator -/

namespace Splice

theorem Print_status_none (r : Run) (t v x : Str) (h : (r.Print t v x).status = none) :
    r.status = none := by
  unfold Run.Print at h
  split at h
  · rename_i hs
    rw [h] at hs
    simp at hs
  · rename_i hs
    simpa using hs

theorem Print_keys (r : Run) (t v x : Str) :
    (r.Print t v x).insertions.map key = r.insertions.map key := by
  unfold Run.Print
  split
  · rfl
  · split
    · rfl
    · rename_i ins rest hi
      split
      · rfl
      · split
        · rw [hi]; rfl
        · rw [hi]

theorem Requested_start (T : List (Str × Str)) : Requested T 0 ⟨none, []⟩ :=
  ⟨0, le_refl _, rfl, fun _ => rfl⟩

theorem Requested_Print (T : List (Str × Str)) (n : Nat) (r : Run) (t v x : Str)
    (h : Requested T n r) : Requested T n (r.Print t v x) := by
  obtain ⟨m, h1, h2, h3⟩ := h
  refine ⟨m, h1, ?_, fun hs => h3 (Print_status_none r t v x hs)⟩
  rw [← h2, List.map_reverse, List.map_reverse, Print_keys]

theorem Requested_OpenForInsert (T : List (Str × Str)) (n : Nat) (r : Run)
    (ctx : OutputDirectory) (f p : Str) (h : Requested T n r)
    (hT : T.take (n + 1) = T.take n ++ [(f, p)]) :
    Requested T (n + 1) (r.OpenForInsert ctx f p) := by
  obtain ⟨m, h1, h2, h3⟩ := h
  unfold Run.OpenForInsert
  split
  · rename_i hs
    refine ⟨m, by omega, h2, fun hn => ?_⟩
    rw [hn] at hs
    simp at hs
  · rename_i hs
    have hn : r.status = none := by simpa using hs
    have hm := h3 hn
    subst hm
    refine ⟨m + 1, le_refl _, ?_, fun _ => rfl⟩
    simp only [List.reverse_cons, List.map_append, h2, hT]
    rfl

theorem Requested_stop (T : List (Str × Str)) (n : Nat) (r : Run) (s : Status)
    (h : Requested T n r) : (r.stop s).insertions.map key <+: T := by
  obtain ⟨m, _, h2, _⟩ := h
  show r.insertions.reverse.map key <+: T
  rw [h2]
  exact List.take_prefix m T

end Splice

/-- C15. For every file name `base.proto` (whatever `base` holds), the header file
name is exactly `base.pb.h` and the source file name exactly `base.pb.cc`;
and for every package, message list and output directory, the requests
`Generate` makes are, in order, a beginning of: `base.pb.h` "includes",
`base.pb.cc` "includes", `base.pb.h` "includes", `base.pb.h`
"namespace_scope", `base.pb.h` "global_scope". -/
theorem C15_file_naming (base : Str) :
    Splice.deriveNames (base ++ ".proto".toList)
      = some (base ++ ".pb.h".toList, base ++ ".pb.cc".toList) ∧
    ∀ (package : Str) (messages : List Str) (ctx : OutputDirectory),
      (Splice.Generate ⟨base ++ ".proto".toList, package, messages⟩ ctx).insertions.map
          Splice.key
        <+: [(base ++ ".pb.h".toList, "includes".toList),
             (base ++ ".pb.cc".toList, "includes".toList),
             (base ++ ".pb.h".toList, "includes".toList),
             (base ++ ".pb.h".toList, "namespace_scope".toList),
             (base ++ ".pb.h".toList, "global_scope".toList)] := by
  refine ⟨Splice.deriveNames_append_proto base, ?_⟩
  intro package messages ctx
  unfold Splice.Generate
  simp only [Splice.deriveNames_append_proto]
  cases messages with
  | nil =>
    simp only
    apply Splice.Requested_stop
    repeat (first
      | exact Splice.Requested_start _
      | apply Splice.Requested_Print
      | apply Splice.Requested_OpenForInsert)
    all_goals rfl
  | cons M others =>
    simp only
    split
    · apply Splice.Requested_stop
      repeat (first
        | exact Splice.Requested_start _
        | apply Splice.Requested_Print
        | apply Splice.Requested_OpenForInsert)
      all_goals rfl
    · split
      · apply Splice.Requested_stop
        repeat (first
          | exact Splice.Requested_start _
          | apply Splice.Requested_Print
          | apply Splice.Requested_OpenForInsert)
        all_goals rfl
      · apply Splice.Requested_stop
        repeat (first
          | exact Splice.Requested_start _
          | apply Splice.Requested_Print
          | apply Splice.Requested_OpenForInsert)
        all_goals rfl

/-- C16. For every descriptor whose file name does not hold ".proto" (and is shorter
than `npos`) and every output directory, `Generate` ends by the exception of
`std::string::replace`: it does not return, and no insertion point has been
requested or written before. -/
theorem C16_missing_marker (file : FileDescriptor) (ctx : OutputDirectory)
    (hno : countOccurrences ".proto".toList file.name = 0)
    (hlen : file.name.length < npos) :
    Splice.Generate file ctx = ⟨Splice.Status.out_of_range, []⟩ := by
  unfold Splice.Generate
  rw [Splice.deriveNames_none file.name hno hlen]

/-- C16, at the file name "ign_msgs/bar.txt". -/
theorem C16_missing_marker_witness :
    countOccurrences ".proto".toList "ign_msgs/bar.txt".toList = 0 ∧
    Splice.Generate ⟨"ign_msgs/bar.txt".toList, "ign_msgs".toList, ["Bar".toList]⟩
      ⟨fun _ => true, fun _ _ => true⟩ = ⟨Splice.Status.out_of_range, []⟩ :=
  ⟨by decide, C16_missing_marker _ _ (by decide) (by decide)⟩

set_option maxRecDepth 100000 in
/-- C18, the code at a failing input: for the file "ign_msgs/empty.proto" with the
package "ign_msgs" and no message type, and every stream handed out,
`Generate` has already inserted the pragma into the header and the include
and the pragma into the source when it evaluates `message_type(0)` on the
empty list; no error is reported before. -/
theorem C18_no_message_failing_input :
    Splice.Generate ⟨"ign_msgs/empty.proto".toList, "ign_msgs".toList, []⟩
        ⟨fun _ => true, fun _ _ => true⟩ =
      ⟨Splice.Status.no_message_type,
       [⟨"ign_msgs/empty.pb.h".toList, "includes".toList, true,
          "#pragma GCC system_header".toList⟩,
        ⟨"ign_msgs/empty.pb.cc".toList, "includes".toList, true,
          ("#include \"ignition/messages/Factory.hh\"\n"
            ++ "#pragma GCC diagnostic ignored \"-Wshadow\"\n").toList⟩]⟩ := by
  decide

/-! ## File names without the marker, and streams that are not handed out -/

set_option maxRecDepth 100000 in
/-- C17, as stated, fails: the file name "gz/msgs/foo.txt" does not hold ".proto",
yet, both streams handed out, `Generate` of the new-header generator returns
`true` and has written the index "gz_msgs_foo.pb_index" and the header
"gz/msgs/foo.gz.h". -/
theorem C17_no_marker_counterexample :
    countOccurrences ".proto".toList "gz/msgs/foo.txt".toList = 0 ∧
    (NewHeader.Generate ⟨"gz/msgs/foo.txt".toList, "gz.msgs".toList, ["Foo".toList]⟩
      ⟨fun _ => true, fun _ _ => true⟩).returned = some true ∧
    (NewHeader.Generate ⟨"gz/msgs/foo.txt".toList, "gz.msgs".toList, ["Foo".toList]⟩
      ⟨fun _ => true, fun _ _ => true⟩).files.map Prod.fst
      = ["gz_msgs_foo.pb_index".toList, "gz/msgs/foo.gz.h".toList] := by
  rw [NewHeader.Generate_eq _ _ rfl rfl]
  decide

/-- C17, amended. The new-header generator makes no check of the file name: for
every descriptor, whatever its file name (with the marker ".proto" or
without), and every output directory handing out the two streams, `Generate`
returns `true` having written an index and a header under the names derived
from the directory components and the stem of the file name. -/
theorem C17_no_marker_check (file : FileDescriptor) (ctx : OutputDirectory)
    (hidx : ctx.Open (NewHeader.deriveNames file.name).indexFilename = true)
    (hhdr : ctx.Open (NewHeader.deriveNames file.name).headerFilename = true) :
    ∃ indexText headerText : Str,
      NewHeader.Generate file ctx =
        ⟨some true,
         [(((path.parent_path (path.parse file.name)).map (fun p => p ++ "_".toList)).flatten
              ++ path.stem (path.parse file.name) ++ ".pb_index".toList, indexText),
          (((path.parent_path (path.parse file.name)).map (fun p => p ++ "/".toList)).flatten
              ++ (path.stem (path.parse file.name) ++ ".gz.h".toList), headerText)]⟩ := by
  have h := NewHeader.Generate_eq file ctx hidx hhdr
  rw [NewHeader.deriveNames_eq] at h
  exact ⟨_, _, h⟩

set_option maxRecDepth 100000 in
/-- C17 amended, at the file names "gz/msgs/foo.txt" and "gz/msgs/foo". -/
theorem C17_no_marker_check_witness :
    (∃ indexText headerText : Str,
      NewHeader.Generate ⟨"gz/msgs/foo.txt".toList, "gz.msgs".toList, ["Foo".toList]⟩
          ⟨fun _ => true, fun _ _ => true⟩ =
        ⟨some true, [("gz_msgs_foo.pb_index".toList, indexText),
          ("gz/msgs/foo.gz.h".toList, headerText)]⟩) ∧
    (∃ indexText headerText : Str,
      NewHeader.Generate ⟨"gz/msgs/foo".toList, "gz.msgs".toList, ["Foo".toList]⟩
          ⟨fun _ => true, fun _ _ => true⟩ =
        ⟨some true, [("gz_msgs_foo.pb_index".toList, indexText),
          ("gz/msgs/foo.gz.h".toList, headerText)]⟩) := by
  constructor
  · obtain ⟨a, b, h⟩ := C17_no_marker_check
      ⟨"gz/msgs/foo.txt".toList, "gz.msgs".toList, ["Foo".toList]⟩
      ⟨fun _ => true, fun _ _ => true⟩ rfl rfl
    refine ⟨a, b, ?_⟩
    rw [h]
    have e1 : ((path.parent_path (path.parse "gz/msgs/foo.txt".toList)).map
        (fun p => p ++ "_".toList)).flatten
        ++ path.stem (path.parse "gz/msgs/foo.txt".toList) ++ ".pb_index".toList
        = "gz_msgs_foo.pb_index".toList := by decide
    have e2 : ((path.parent_path (path.parse "gz/msgs/foo.txt".toList)).map
        (fun p => p ++ "/".toList)).flatten
        ++ (path.stem (path.parse "gz/msgs/foo.txt".toList) ++ ".gz.h".toList)
        = "gz/msgs/foo.gz.h".toList := by decide
    simp only [e1, e2]
  · obtain ⟨a, b, h⟩ := C17_no_marker_check
      ⟨"gz/msgs/foo".toList, "gz.msgs".toList, ["Foo".toList]⟩
      ⟨fun _ => true, fun _ _ => true⟩ rfl rfl
    refine ⟨a, b, ?_⟩
    rw [h]
    have e1 : ((path.parent_path (path.parse "gz/msgs/foo".toList)).map
        (fun p => p ++ "_".toList)).flatten
        ++ path.stem (path.parse "gz/msgs/foo".toList) ++ ".pb_index".toList
        = "gz_msgs_foo.pb_index".toList := by decide
    have e2 : ((path.parent_path (path.parse "gz/msgs/foo".toList)).map
        (fun p => p ++ "/".toList)).flatten
        ++ (path.stem (path.parse "gz/msgs/foo".toList) ++ ".gz.h".toList)
        = "gz/msgs/foo.gz.h".toList := by decide
    simp only [e1, e2]

namespace Splice

theorem Print_status (r : Run) (t v x : Str)
    (h : r.status = none ∨ r.status = some Status.null_stream) :
    (r.Print t v x).status = none ∨ (r.Print t v x).status = some Status.null_stream := by
  unfold Run.Print
  split
  · exact h
  · split
    · exact h
    · split
      · exact h
      · split
        · exact Or.inl rfl
        · exact Or.inr rfl

theorem OpenForInsert_status (r : Run) (ctx : OutputDirectory) (f p : Str)
    (h : r.status = none ∨ r.status = some Status.null_stream) :
    (r.OpenForInsert ctx f p).status = none ∨
      (r.OpenForInsert ctx f p).status = some Status.null_stream := by
  unfold Run.OpenForInsert
  split
  · exact h
  · exact Or.inl rfl

theorem stop_ne_returned_false (r : Run) (s : Status)
    (h : r.status = none ∨ r.status = some Status.null_stream)
    (hs : s ≠ Status.returned false) : (r.stop s).status ≠ Status.returned false := by
  unfold Run.stop
  rcases h with h | h
  · rw [h]; exact hs
  · rw [h]; simp

/-- The splice `Generate` never returns `false`. -/
theorem splice_never_returns_false (file : FileDescriptor) (ctx : OutputDirectory) :
    (Generate file ctx).status ≠ Status.returned false := by
  unfold Generate
  split
  · simp
  · cases file.message_type with
    | nil =>
      simp only
      apply stop_ne_returned_false _ _ _ (by simp)
      repeat (first
        | exact Or.inl rfl
        | apply Print_status
        | apply OpenForInsert_status)
    | cons M others =>
      simp only
      split
      · apply stop_ne_returned_false _ _ _ (by simp)
        repeat (first
          | exact Or.inl rfl
          | apply Print_status
          | apply OpenForInsert_status)
      · split
        · apply stop_ne_returned_false _ _ _ (by simp)
          repeat (first
            | exact Or.inl rfl
            | apply Print_status
            | apply OpenForInsert_status)
        · apply stop_ne_returned_false _ _ _ (by simp)
          repeat (first
            | exact Or.inl rfl
            | apply Print_status
            | apply OpenForInsert_status)

end Splice

namespace NewHeader

/-- The new-header `Generate` never returns `false`. -/
theorem header_never_returns_false (file : FileDescriptor) (ctx : OutputDirectory) :
    (Generate file ctx).returned ≠ some false := by
  unfold Generate
  simp only
  split <;> simp

end NewHeader

set_option maxRecDepth 100000 in
/-- C19, as stated, fails: for the file "gz/msgs/foo.proto" with no message and an
output directory that hands out every stream but the one of the index,
"gz_msgs_foo.pb_index", the new-header `Generate` returns `true`, and the
header is the only file written. -/
theorem C19_open_failure_counterexample :
    (NewHeader.Generate ⟨"gz/msgs/foo.proto".toList, "gz.msgs".toList, []⟩
      ⟨fun p => decide (p ≠ "gz_msgs_foo.pb_index".toList), fun _ _ => true⟩).returned
      = some true ∧
    (NewHeader.Generate ⟨"gz/msgs/foo.proto".toList, "gz.msgs".toList, []⟩
      ⟨fun p => decide (p ≠ "gz_msgs_foo.pb_index".toList), fun _ _ => true⟩).files.map Prod.fst
      = ["gz/msgs/foo.gz.h".toList] := by
  unfold NewHeader.Generate
  simp only [NewHeader.deriveNames_foo, getNamespaces_eq]
  decide

set_option maxRecDepth 100000 in
/-- C19, amended. Neither generator checks a stream, and neither ever returns `false`.
When every stream asked for is handed out, `Generate` returns `true` with
every artifact written: the new-header generator the index and the header;
the splice generator (file name `base.proto`, a first message and a package
without '$' and NUL, the package fitting a `size_t` length) its five
insertions, each into a stream and non-empty. -/
theorem C19_streams_unchecked :
    (∀ (file : FileDescriptor) (ctx : OutputDirectory),
      ctx.Open (NewHeader.deriveNames file.name).indexFilename = true →
      ctx.Open (NewHeader.deriveNames file.name).headerFilename = true →
      ∃ indexText headerText : Str,
        NewHeader.Generate file ctx =
          ⟨some true, [((NewHeader.deriveNames file.name).indexFilename, indexText),
            ((NewHeader.deriveNames file.name).headerFilename, headerText)]⟩) ∧
    (∀ (base package M : Str) (others : List Str) (ctx : OutputDirectory),
      (∀ f p, ctx.OpenForInsert f p = true) →
      '$' ∉ M → Char.ofNat 0 ∉ M → '$' ∉ package → Char.ofNat 0 ∉ package →
      package.length + package.count '.' < 2 ^ 64 →
      (Splice.Generate ⟨base ++ ".proto".toList, package, M :: others⟩ ctx).status
        = Splice.Status.returned true ∧
      (Splice.Generate ⟨base ++ ".proto".toList, package, M :: others⟩ ctx).insertions.map
          Splice.key
        = [(base ++ ".pb.h".toList, "includes".toList),
           (base ++ ".pb.cc".toList, "includes".toList),
           (base ++ ".pb.h".toList, "includes".toList),
           (base ++ ".pb.h".toList, "namespace_scope".toList),
           (base ++ ".pb.h".toList, "global_scope".toList)] ∧
      ∀ i ∈ (Splice.Generate ⟨base ++ ".proto".toList, package, M :: others⟩ ctx).insertions,
        i.stream = true ∧ i.text ≠ []) ∧
    (∀ (file : FileDescriptor) (ctx : OutputDirectory),
      (NewHeader.Generate file ctx).returned ≠ some false) ∧
    (∀ (file : FileDescriptor) (ctx : OutputDirectory),
      (Splice.Generate file ctx).status ≠ Splice.Status.returned false) := by
  refine ⟨?_, ?_, NewHeader.header_never_returns_false, Splice.splice_never_returns_false⟩
  · intro file ctx hidx hhdr
    exact ⟨_, _, NewHeader.Generate_eq file ctx hidx hhdr⟩
  · intro base package M others ctx hopen hMd hMn hPd hPn hlen
    rw [Splice.Generate_insertions base package M others ctx hopen hMd hMn hPd hPn hlen]
    refine ⟨rfl, rfl, ?_⟩
    intro i hi
    simp only [List.mem_cons, List.mem_singleton, List.not_mem_nil, or_false] at hi
    rcases hi with rfl | rfl | rfl | rfl | rfl
    all_goals exact ⟨rfl, by simp⟩

/-- C19 amended, at the two scenario descriptors and the output directory that
hands out every stream. -/
theorem C19_streams_unchecked_witness :
    (∃ indexText headerText : Str,
      NewHeader.Generate ⟨"gz/msgs/foo.proto".toList, "gz.msgs".toList, ["Foo".toList]⟩
          ⟨fun _ => true, fun _ _ => true⟩ =
        ⟨some true, [("gz_msgs_foo.pb_index".toList, indexText),
          ("gz/msgs/foo.gz.h".toList, headerText)]⟩) ∧
    (Splice.Generate ⟨"ign_msgs/bar".toList ++ ".proto".toList, "ign_msgs".toList,
        ["Bar".toList]⟩ ⟨fun _ => true, fun _ _ => true⟩).status
      = Splice.Status.returned true := by
  refine ⟨?_, (C19_streams_unchecked.2.1 "ign_msgs/bar".toList "ign_msgs".toList "Bar".toList []
    ⟨fun _ => true, fun _ _ => true⟩ (fun _ _ => rfl) (by decide) (by decide) (by decide)
    (by decide) (by decide)).1⟩
  obtain ⟨a, b, h⟩ := C19_streams_unchecked.1
    ⟨"gz/msgs/foo.proto".toList, "gz.msgs".toList, ["Foo".toList]⟩
    ⟨fun _ => true, fun _ _ => true⟩ rfl rfl
  rw [NewHeader.deriveNames_foo] at h
  exact ⟨a, b, h⟩
